import Mathlib

/-!
Verification of the milagro_bls aggregation and serialization core.

The development shallowly embeds the two source files of the repository:

* `src/amcl_utils.rs` — the point serialization codec (`compress_g1`,
  `decompress_g1`, `compress_g2`, `decompress_g2`, `cmp_fp2`,
  `ate2_evaluation`, `hash_on_g2`);
* `src/aggregates.rs` — `AggregatePublicKey`, `AggregateSignature` and the
  three verification protocols (`verify`, `verify_multiple`,
  `verify_multiple_signatures`).

External collaborators (the amcl curve/pairing provider, the hash-to-curve
function, the random source) are modelled as explicit parameters, or
concretely from their documented behaviour where a concrete value is needed.
Field elements and machine integers are `Nat`/`Int` with explicit modular
reduction.
-/

namespace MilagroBLS

/-- Decode errors of the codec (from `errors.rs`, as used in
`amcl_utils.rs`): wrong byte length, clear compression bit, or a malformed /
invalid point. -/
inductive DecodeError where
  | IncorrectSize
  | InvalidCompressionFlag
  | BadPoint
deriving DecidableEq, Repr

/-- Decidable equality of decode results, for evaluating the codec on
concrete inputs. -/
instance {e a : Type} [DecidableEq e] [DecidableEq a] : DecidableEq (Except e a) := fun x y =>
  match x, y with
  | .error e1, .error e2 =>
      if h : e1 = e2 then .isTrue (by rw [h])
      else .isFalse (fun hc => h (by injection hc))
  | .ok v1, .ok v2 =>
      if h : v1 = v2 then .isTrue (by rw [h])
      else .isFalse (fun hc => h (by injection hc))
  | .error _, .ok _ => .isFalse (fun hc => Except.noConfusion hc)
  | .ok _, .error _ => .isFalse (fun hc => Except.noConfusion hc)

/-- Big-endian byte-array decoding, as amcl's `Big::frombytes` reads a
byte slice into an unsigned big integer. -/
def bytesToNat (bs : List Nat) : Nat :=
  bs.foldl (fun acc v => acc * 256 + v) 0

/-- Big-endian encoding of `n` into `l` bytes (the x-coordinate part of the
byte array that amcl's `tobytes` emits). -/
def natToBytes : Nat → Nat → List Nat
  | 0, _ => []
  | l + 1, n => (n / 256 ^ l % 256) :: natToBytes l (n % 256 ^ l)

/-- `result[0] += flags`: add the flag bits into byte 0 of a serialized
point, as `compress_g1` / `compress_g2` do. -/
def setFlags (f : Nat) : List Nat → List Nat
  | [] => []
  | h :: t => (h + f) :: t

/-- A G1 element of the curve provider: the point at infinity or an affine
point with `Nat` coordinates (amcl `ECP`, coordinates reduced mod the field
prime `p`). -/
inductive GroupG1 where
  | inf
  | aff (x y : Nat)
deriving DecidableEq, Repr

def GroupG1.is_infinity : GroupG1 → Bool
  | .inf => true
  | .aff _ _ => false

def GroupG1.getx : GroupG1 → Nat
  | .inf => 0
  | .aff x _ => x

def GroupG1.gety : GroupG1 → Nat
  | .inf => 0
  | .aff _ y => y

/-- Point negation `(x, y) ↦ (x, -y)` of the provider, with the field
negation written mod `p`. -/
def GroupG1.neg (p : Nat) : GroupG1 → GroupG1
  | .inf => .inf
  | .aff x y => .aff x ((p - y % p) % p)

/-- Modelled from the spec: the provider's "construct point from x"
(amcl `ECP::new_big`).  It reduces `x` mod `p`, evaluates the curve
right-hand side `x³ + 4`, obtains a square-root candidate from the field's
square-root routine `sqrtF`, and returns the point when the candidate
squares back to the right-hand side, the point at infinity otherwise. -/
def new_big (p : Nat) (sqrtF : Nat → Nat) (x : Nat) : GroupG1 :=
  let xr := x % p
  let rhs := (xr * xr * xr + 4) % p
  let s := sqrtF rhs % p
  if s * s % p = rhs then .aff xr s else .inf

/-- `compress_g1` from `src/amcl_utils.rs`: the identity is a 48-byte zero
array with compressed+infinity flags; otherwise the 48 big-endian bytes of
the x-coordinate (the tail of amcl `tobytes(_, true)`) with the compressed
flag and, when `y > -y`, the y-sign flag added into byte 0. -/
def compress_g1 (p : Nat) (g1 : GroupG1) : List Nat :=
  if g1.is_infinity then 192 :: List.replicate 47 0
  else
    let y := g1.gety
    let y_neg := (g1.neg p).gety
    let flags := 128 + (if y_neg < y then 32 else 0)
    setFlags flags (natToBytes 48 g1.getx)

/-- `decompress_g1` from `src/amcl_utils.rs`, line for line: length check,
compression-flag check, infinity-pattern check, then reconstruction from x
via `new_big` and selection of the candidate whose y-sign matches the
flag. -/
def decompress_g1 (p : Nat) (sqrtF : Nat → Nat) (b : List Nat) :
    Except DecodeError GroupG1 :=
  if b.length ≠ 48 then .error .IncorrectSize
  else
    let b0 := b.headD 0
    if b0 / 128 ≠ 1 then .error .InvalidCompressionFlag
    else if b0 % 128 / 64 = 1 then
      if b0 % 64 ≠ 0 then .error .BadPoint
      else if b.tail.any (fun v => v ≠ 0) then .error .BadPoint
      else .ok .inf
    else
      let y_flag : Bool := decide (0 < b0 % 64 / 32)
      let x_big := bytesToNat (b0 % 32 :: b.tail)
      let point := new_big p sqrtF x_big
      if point.is_infinity then .error .BadPoint
      else
        let point_neg := point.neg p
        if (decide (point_neg.gety < point.gety)) ≠ y_flag then .ok point_neg
        else .ok point

/-- An element of the quadratic extension field F_p², amcl `FP2`:
`a` is the real component, `b` the imaginary component. -/
structure FP2n where
  a : Nat
  b : Nat
deriving DecidableEq, Repr

def fp2red (p : Nat) (u : FP2n) : FP2n := ⟨u.a % p, u.b % p⟩

def fp2add (p : Nat) (u v : FP2n) : FP2n :=
  ⟨(u.a + v.a) % p, (u.b + v.b) % p⟩

/-- Multiplication in F_p² = F_p[u]/(u²+1); the real part is written with
an added `p * p` so that the subtraction stays in `Nat`. -/
def fp2mul (p : Nat) (u v : FP2n) : FP2n :=
  ⟨((u.a % p) * (v.a % p) + p * p - (u.b % p) * (v.b % p)) % p,
   (u.a * v.b + u.b * v.a) % p⟩

def fp2neg (p : Nat) (u : FP2n) : FP2n :=
  ⟨(p - u.a % p) % p, (p - u.b % p) % p⟩

/-- amcl `Big::comp`: -1, 0 or 1 as the first argument is smaller than,
equal to, or greater than the second. -/
def bigComp (x y : Nat) : Int :=
  if x < y then -1 else if y < x then 1 else 0

/-- `cmp_fp2` from `src/amcl_utils.rs`: compare the imaginary components
(`FP2.b`) first and, only if those are equal, the real components
(`FP2.a`). -/
def cmp_fp2 (n1 n2 : FP2n) : Int :=
  let result := bigComp n1.b n2.b
  if result = 0 then bigComp n1.a n2.a else result

/-- A G2 element of the curve provider (amcl `ECP2`). -/
inductive GroupG2 where
  | inf
  | aff (x y : FP2n)
deriving DecidableEq, Repr

def GroupG2.is_infinity : GroupG2 → Bool
  | .inf => true
  | .aff _ _ => false

def GroupG2.getx : GroupG2 → FP2n
  | .inf => ⟨0, 0⟩
  | .aff x _ => x

def GroupG2.gety : GroupG2 → FP2n
  | .inf => ⟨0, 0⟩
  | .aff _ y => y

def GroupG2.neg (p : Nat) : GroupG2 → GroupG2
  | .inf => .inf
  | .aff x y => .aff x (fp2neg p y)

/-- Modelled from the spec: the provider's "construct point from x" on G2
(amcl `ECP2::new_fp2`), with curve constant `4(1+u)` and the provider's
F_p² square-root routine `sqrtF2`, checked by squaring as in `new_big`. -/
def new_fp2 (p : Nat) (sqrtF2 : FP2n → FP2n) (x : FP2n) : GroupG2 :=
  let xr := fp2red p x
  let rhs := fp2add p (fp2mul p xr (fp2mul p xr xr)) ⟨4, 4⟩
  let s := fp2red p (sqrtF2 rhs)
  if fp2mul p s s = rhs then .aff xr s else .inf

/-- `compress_g2` from `src/amcl_utils.rs`: 96-byte zero array with both
flags for the identity; otherwise the 48 bytes of the imaginary x-component
followed by the 48 bytes of the real x-component (the reverse of amcl's
native real-then-imaginary `tobytes` order), with the compressed flag and,
when `cmp_fp2 y (-y) > 0`, the y-sign flag added into byte 0. -/
def compress_g2 (p : Nat) (g2 : GroupG2) : List Nat :=
  if g2.is_infinity then 192 :: List.replicate 95 0
  else
    let y := g2.gety
    let y_neg := (g2.neg p).gety
    let flags := 128 + (if 0 < cmp_fp2 y y_neg then 32 else 0)
    setFlags flags (natToBytes 48 g2.getx.b ++ natToBytes 48 g2.getx.a)

/-- `decompress_g2` from `src/amcl_utils.rs`, line for line; the first 48
bytes (flags cleared) are the imaginary x-component, the last 48 the real
x-component, and the candidate point is selected with `cmp_fp2`. -/
def decompress_g2 (p : Nat) (sqrtF2 : FP2n → FP2n) (b : List Nat) :
    Except DecodeError GroupG2 :=
  if b.length ≠ 96 then .error .IncorrectSize
  else
    let b0 := b.headD 0
    if b0 / 128 ≠ 1 then .error .InvalidCompressionFlag
    else if b0 % 128 / 64 = 1 then
      if b0 % 64 ≠ 0 then .error .BadPoint
      else if b.tail.any (fun v => v ≠ 0) then .error .BadPoint
      else .ok .inf
    else
      let y_flag : Bool := decide (0 < b0 % 64 / 32)
      let x_imaginary := bytesToNat (b0 % 32 :: b.tail.take 47)
      let x_real := bytesToNat (b.drop 48)
      let point := new_fp2 p sqrtF2 ⟨x_real, x_imaginary⟩
      if point.is_infinity then .error .BadPoint
      else
        let point_neg := point.neg p
        if (decide (0 < cmp_fp2 point.gety point_neg.gety)) ≠ y_flag then
          .ok point_neg
        else .ok point

/-- The curve equation for G1: `y² = x³ + 4` over F_p, with reduced
coordinates; the identity is on the curve. -/
def GroupG1.OnCurve (p : Nat) : GroupG1 → Prop
  | .inf => True
  | .aff x y => x < p ∧ y < p ∧ y * y % p = (x * x * x + 4) % p

instance (p : Nat) (P : GroupG1) : Decidable (P.OnCurve p) := by
  cases P <;> simp [GroupG1.OnCurve] <;> infer_instance

/-- The curve equation for G2: `y² = x³ + 4(1+u)` over F_p². -/
def GroupG2.OnCurve (p : Nat) : GroupG2 → Prop
  | .inf => True
  | .aff x y =>
      x.a < p ∧ x.b < p ∧ y.a < p ∧ y.b < p ∧
      fp2mul p y y = fp2add p (fp2mul p x (fp2mul p x x)) ⟨4, 4⟩

instance (p : Nat) (P : GroupG2) : Decidable (P.OnCurve p) := by
  cases P <;> simp [GroupG2.OnCurve] <;> infer_instance

/-! ### Concrete BLS12-381 instantiation

The curve constants live in the external provider's `rom` module
(`BLSCurve::rom`); the values below are the BLS12-381 base-field prime and
the order of the prime-order subgroup, which the code imports as
`CURVE_ORDER`. -/

/-- The BLS12-381 base-field prime (the provider's `rom::MODULUS`). -/
def pBLS : Nat :=
  0x1a0111ea397fe69a4b1ba7b6434bacd764774b84f38512bf6730d2a0f6b0f6241eabfffeb153ffffb9feffffffffaaab

/-- The order of the prime-order subgroup (the provider's
`rom::CURVE_ORDER`). -/
def rOrder : Nat :=
  0x73eda753299d7d483339d80809a1d80553bda402fffe5bfeffffffff00000001

/-- Modular exponentiation by repeated squaring (fuelled structural
recursion; the fuel bounds the number of binary digits of the exponent). -/
def powmodAux (p : Nat) : Nat → Nat → Nat → Nat
  | 0, _, _ => 1 % p
  | fuel + 1, a, e =>
    if e = 0 then 1 % p
    else
      let h := powmodAux p fuel (a * a % p) (e / 2)
      if e % 2 = 1 then h * a % p else h

def powmod (p a e : Nat) : Nat := powmodAux p 400 a e

/-- Modelled from the spec: the provider's base-field square root.  Since
`pBLS ≡ 3 (mod 4)` the square root of a quadratic residue `a` is
`a^((p+1)/4)`, which is what amcl's `FP::sqrt` computes. -/
def sqrtBLS (rhs : Nat) : Nat := powmod pBLS rhs ((pBLS + 1) / 4)

/-- Field inversion by Fermat's little theorem, `a⁻¹ = a^(p-2) mod p`. -/
def invBLS (a : Nat) : Nat := powmod pBLS a (pBLS - 2)

/-- The textbook chord-and-tangent group law on the curve
`y² = x³ + 4` over `F_pBLS`, on affine points with reduced coordinates. -/
def ecAddBLS : GroupG1 → GroupG1 → GroupG1
  | .inf, q => q
  | q, .inf => q
  | .aff x1 y1, .aff x2 y2 =>
    if x1 = x2 then
      if (y1 + y2) % pBLS = 0 then .inf
      else
        let lam := 3 * x1 * x1 % pBLS * invBLS (2 * y1 % pBLS) % pBLS
        let x3 := (lam * lam + 2 * pBLS - (x1 + x2) % pBLS) % pBLS
        let y3 := (lam * ((x1 + pBLS - x3) % pBLS) % pBLS + pBLS - y1 % pBLS) % pBLS
        .aff x3 y3
    else
      let lam := (y2 + pBLS - y1 % pBLS) % pBLS * invBLS ((x2 + pBLS - x1 % pBLS) % pBLS) % pBLS
      let x3 := (lam * lam + 2 * pBLS - (x1 + x2) % pBLS) % pBLS
      let y3 := (lam * ((x1 + pBLS - x3) % pBLS) % pBLS + pBLS - y1 % pBLS) % pBLS
      .aff x3 y3

/-- One step of binary (right-to-left) double-and-add: the state holds the
accumulator, the running power of the base point, and the remaining
scalar. -/
def smulState (s : GroupG1 × GroupG1 × Nat) : GroupG1 × GroupG1 × Nat :=
  match s with
  | (acc, base, k) =>
      (if k % 2 = 1 then ecAddBLS acc base else acc, ecAddBLS base base, k / 2)

/-- Scalar multiplication `k · q` by 255 double-and-add steps (the curve
order has 255 bits, so the remaining scalar is exhausted). -/
def smulBLS (k : Nat) (q : GroupG1) : GroupG1 :=
  (smulState^[255] (.inf, q, k)).1

/-- Membership in the correct prime-order subgroup of G1: a point `P` lies
in the order-`rOrder` subgroup exactly when `rOrder · P` is the identity
(the subgroup is the `rOrder`-torsion, as `rOrder` exactly divides the curve
order). -/
def inSubgroupG1 (q : GroupG1) : Prop := smulBLS rOrder q = .inf

instance (q : GroupG1) : Decidable (inSubgroupG1 q) := by
  unfold inSubgroupG1; infer_instance

/-- A 48-byte compressed G1 input: compression flag set, x-coordinate 4.
`x = 4` is the x-coordinate of a curve point that is NOT in the
prime-order subgroup. -/
def badBytesG1 : List Nat := 128 :: (List.replicate 46 0 ++ [4])

/-- The curve point `(4, √68)` that `decompress_g1` reconstructs from
`badBytesG1`; it is on the curve but outside the prime-order subgroup. -/
def ptBad : GroupG1 :=
  .aff 4 1630892974828014537729259858097113969650871260980656934049590190201941782487224876496582135785777461178964897591404

/-- A 48-byte input whose x-field holds the non-canonical value
`pBLS + 4`: it denotes the same field element as `4`, so `decompress_g1`
accepts it, but re-compression emits the reduced bytes. -/
def nonCanonBytesG1 : List Nat := setFlags 128 (natToBytes 48 (pBLS + 4))

/-! ### Toy instantiation of the field parameters

A small prime `p = 19` (also `≡ 3 mod 4`) with brute-force square roots,
used to instantiate the generic codec theorems on concrete inputs. -/

/-- Brute-force square root in F_19. -/
def sqrtT (rhs : Nat) : Nat :=
  ((List.range 19).find? (fun s => s * s % 19 = rhs % 19)).getD 0

/-- Brute-force square root in F_19². -/
def sqrtT2 (rhs : FP2n) : FP2n :=
  (((List.range 19).flatMap fun u => (List.range 19).map fun v => (⟨u, v⟩ : FP2n)).find?
      (fun s => fp2mul 19 s s = fp2red 19 rhs)).getD ⟨0, 0⟩

/-- Brute-force square root in F_3 (second toy prime, `3 ≡ 3 mod 4`). -/
def sqrtT3 (rhs : Nat) : Nat :=
  ((List.range 3).find? (fun s => s * s % 3 = rhs % 3)).getD 0

/-- Brute-force square root in F_3². -/
def sqrtT3h (rhs : FP2n) : FP2n :=
  (((List.range 3).flatMap fun u => (List.range 3).map fun v => (⟨u, v⟩ : FP2n)).find?
      (fun s => fp2mul 3 s s = fp2red 3 rhs)).getD ⟨0, 0⟩

/-! ### hash-to-curve, as defined in `src/amcl_utils.rs`

`hash_on_g2` is declared there with a SINGLE parameter — the message — and
forwards it to the external `hash_to_curve_g2`; no domain parameter exists
in its signature, although every call site in `src/aggregates.rs` invokes
it as `hash_on_g2(msg, domain)`. -/

/-- `hash_on_g2` from `src/amcl_utils.rs` (lines 32–35): takes only the
message and forwards it to the external provider's `hash_to_curve_g2`. -/
def hash_on_g2 {G2T : Type} (hash_to_curve_g2 : List Nat → G2T) (msg : List Nat) : G2T :=
  hash_to_curve_g2 msg

/-- The two-argument invocation `hash_on_g2(msg, domain)` that appears at
every call site in `src/aggregates.rs`, serviced by the one-argument
definition above: the domain argument has no parameter to bind and is
dropped. -/
def hash_on_g2_call {G2T : Type} (hash_to_curve_g2 : List Nat → G2T)
    (msg : List Nat) (_domain : Nat) : G2T :=
  hash_on_g2 hash_to_curve_g2 msg

/-! ### The aggregation and verification layer (`src/aggregates.rs`)

The curve and pairing provider is external (amcl), so the layer is
parameterised over it: the G1/G2 group operations, the pairing accumulator
(`pair::initmp` / `pair::another` / `pair::miller` / `pair::fexp` /
`isunity`), the two-pairing evaluator `ate2`, and the two-argument
hash-to-curve used by the call sites.  Wrapped points (`G1Point`,
`G2Point` from `g1.rs`/`g2.rs`, not part of the sources) are modelled per
the spec as bare group values whose equality compares normalized values, so
`affine()` is the identity on the value. -/

section Aggregates

variable {G1 G2 FP12 MAcc : Type}
variable (g1add : G1 → G1 → G1) (g1neg : G1 → G1) (g1zero g1gen : G1)
variable (g1smul : Int → G1 → G1)
variable (g2add : G2 → G2 → G2) (g2zero : G2) (g2smul : Int → G2 → G2)
variable (ate2 : G2 → G1 → G2 → G1 → FP12) (fexp : FP12 → FP12)
variable (fp12one : FP12) (fp12eq : FP12 → FP12 → Bool)
variable (initmp : MAcc) (another : MAcc → G2 → G1 → MAcc)
variable (miller : MAcc → FP12) (isunity : FP12 → Bool)
variable (hashG2 : List Nat → Nat → G2)

/-- `ate2_evaluation` from `src/amcl_utils.rs`: evaluate
`e(A,B) · e(C,D)`, final-exponentiate, and compare with the target-field
identity `FP12::new_int(1)`. -/
def ate2_evaluation (a : G2) (b : G1) (c : G2) (d : G1) : Bool :=
  fp12eq fp12one (fexp (ate2 a b c d))

/-- `AggregatePublicKey` from `src/aggregates.rs`: wraps one G1 point. -/
structure AggregatePublicKey (G1 : Type) where
  point : G1
deriving DecidableEq

/-- `AggregatePublicKey::new`: the underlying point is set to infinity. -/
def AggregatePublicKey.new : AggregatePublicKey G1 := ⟨g1zero⟩

/-- `AggregatePublicKey::add`: in-place point addition of a public key. -/
def AggregatePublicKey.add (apk : AggregatePublicKey G1) (pk : G1) :
    AggregatePublicKey G1 :=
  ⟨g1add apk.point pk⟩

/-- `AggregatePublicKey::add_aggregate`: in-place point addition of another
aggregate. -/
def AggregatePublicKey.add_aggregate (apk other : AggregatePublicKey G1) :
    AggregatePublicKey G1 :=
  ⟨g1add apk.point other.point⟩

/-- `AggregatePublicKey::from_public_keys`: fold of `add` starting from
`new()`, followed by one (value-preserving) normalization pass. -/
def AggregatePublicKey.from_public_keys (keys : List G1) : AggregatePublicKey G1 :=
  keys.foldl (fun acc k => acc.add g1add k) (AggregatePublicKey.new g1zero)

/-- `AggregateSignature` from `src/aggregates.rs`: wraps one G2 point. -/
structure AggregateSignature (G2 : Type) where
  point : G2
deriving DecidableEq

/-- `AggregateSignature::new`: the underlying point is set to infinity. -/
def AggregateSignature.new : AggregateSignature G2 := ⟨g2zero⟩

/-- `AggregateSignature::add`: in-place point addition of a signature. -/
def AggregateSignature.add (asig : AggregateSignature G2) (s : G2) :
    AggregateSignature G2 :=
  ⟨g2add asig.point s⟩

/-- `AggregateSignature::add_aggregate`. -/
def AggregateSignature.add_aggregate (asig other : AggregateSignature G2) :
    AggregateSignature G2 :=
  ⟨g2add asig.point other.point⟩

/-- `AggregateSignature::verify`: accept iff
`e(S, -generator) · e(hash(msg, domain), PK)` is the target identity. -/
def AggregateSignature.verify (asig : AggregateSignature G2) (msg : List Nat)
    (domain : Nat) (avk : AggregatePublicKey G1) : Bool :=
  ate2_evaluation ate2 fexp fp12one fp12eq
    asig.point (g1neg g1gen) (hashG2 msg domain) avk.point

/-- The loop of `verify_multiple`: one `pair::another` accumulation per
`(message, aggregate-key)` pair, returning `none` at the first message that
is not exactly 32 bytes (the in-loop early `return false`). -/
def vmLoop (domain : Nat) : MAcc → List (List Nat) → List G1 → Option MAcc
  | racc, [], [] => some racc
  | racc, m :: ms, k :: ks =>
      if m.length ≠ 32 then none
      else vmLoop domain (another racc (hashG2 m domain) k) ms ks
  | _, _, _ => none

/-- `AggregateSignature::verify_multiple`: reject on length mismatch or
empty key list; accumulate one pairing per pair plus `e(S, -generator)`;
one shared Miller-loop finalization and final exponentiation. -/
def AggregateSignature.verify_multiple (asig : AggregateSignature G2)
    (msg : List (List Nat)) (domain : Nat)
    (apks : List (AggregatePublicKey G1)) : Bool :=
  if msg.length ≠ apks.length ∨ apks.isEmpty then false
  else
    match vmLoop another hashG2 domain initmp msg (apks.map (fun a => a.point)) with
    | none => false
    | some racc =>
        isunity (fexp (miller (another racc asig.point (g1neg g1gen))))

/-- The 8 random bytes drawn per signature set, interpreted as a big-endian
`i64` (`i64::from_be_bytes`). -/
def toI64 (v : Nat) : Int := if v < 2 ^ 63 then (v : Int) else (v : Int) - 2 ^ 64

/-- Rust's wrapping `i64::abs`: the absolute value, except that the minimal
`i64` maps to itself. -/
def i64abs (x : Int) : Int := if x = -(2 ^ 63) then x else |x|

/-- The blinding scalar of `verify_multiple_signatures`: fill 8 bytes from
the random source, reinterpret as a big-endian `i64`, take the absolute
value. -/
def randScalar (bytes : List Nat) : Int := i64abs (toI64 (bytesToNat bytes))

/-- The loop of `verify_multiple_signatures`: per set, check the key and
message counts match (`return false` otherwise), draw the 8-byte scalar,
accumulate `e(hash(msg, domain), r·key)` per pair, and add `r·signature`
into the running G2 total.  The random source is a stream of 8-byte draws
indexed by the set number. -/
def vmsLoop (rng : Nat → List Nat) :
    Nat → MAcc → G2 → List (G2 × List G1 × List (List Nat) × Nat) →
      Option (MAcc × G2)
  | _, racc, total, [] => some (racc, total)
  | i, racc, total, (sigpt, g1pts, msgs, domain) :: rest =>
      if g1pts.length ≠ msgs.length then none
      else
        let rand := randScalar (rng i)
        let racc2 := (msgs.zip g1pts).foldl
          (fun acc mk => another acc (hashG2 mk.1 domain) (g1smul rand mk.2)) racc
        vmsLoop rng (i + 1) racc2 (g2add total (g2smul rand sigpt)) rest

/-- `AggregateSignature::verify_multiple_signatures`: run the batched loop,
then add the term `e(total, -generator)` and finish with one Miller-loop
finalization and final exponentiation. -/
def verify_multiple_signatures (rng : Nat → List Nat)
    (signature_sets : List (G2 × List G1 × List (List Nat) × Nat)) : Bool :=
  match vmsLoop g1smul g2add g2smul another hashG2 rng 0 initmp g2zero signature_sets with
  | none => false
  | some (racc, total) =>
      isunity (fexp (miller (another racc total (g1neg g1gen))))

/-- Declarative form of the pairing terms accumulated by `vmsLoop` from set
index `i` on: one `(hash(message, domain), r_i · key)` pair per
(message, key) pair of each set. -/
def vmsTermsFrom (rng : Nat → List Nat) :
    Nat → List (G2 × List G1 × List (List Nat) × Nat) → List (G2 × G1)
  | _, [] => []
  | i, (_, g1pts, msgs, domain) :: rest =>
      (msgs.zip g1pts).map
        (fun mk => (hashG2 mk.1 domain, g1smul (randScalar (rng i)) mk.2)) ++
      vmsTermsFrom rng (i + 1) rest

/-- Declarative form of the blinded signatures summed by `vmsLoop` from set
index `i` on: `r_i · signature_i` per set. -/
def vmsSigsFrom (rng : Nat → List Nat) :
    Nat → List (G2 × List G1 × List (List Nat) × Nat) → List G2
  | _, [] => []
  | i, (sigpt, _, _, _) :: rest =>
      g2smul (randScalar (rng i)) sigpt :: vmsSigsFrom rng (i + 1) rest

/-- Fold a list of pairing terms into the accumulator with
`pair::another`. -/
def anotherFold (racc : MAcc) (terms : List (G2 × G1)) : MAcc :=
  terms.foldl (fun a t => another a t.1 t.2) racc

end Aggregates

/-! ### Toy pairing provider

A complete concrete instantiation of the external provider over the
integers: both groups and the target are `Int`, the pairing is the product,
the accumulator keeps the running sum of pairing products, and — like
amcl's `PAIR_another` — an accumulation with an identity argument is
skipped.  It satisfies every provider law the theorems assume and lets the
generic theorems be evaluated on closed inputs. -/

def toyAte2 (a b c d : Int) : Int := a * b + c * d

def toyAnother (acc q g : Int) : Int := if q = 0 ∨ g = 0 then acc else acc + q * g

def toySmul (k : Int) (x : Int) : Int := k * x

def toyEq (x y : Int) : Bool := x == y

def toyIsUnity (t : Int) : Bool := t == 0

def toyHash (msg : List Nat) (domain : Nat) : Int :=
  (bytesToNat msg : Int) + (domain : Int) + 1

/-- A random source that always fills the 8 bytes with zero — a legitimate
(degenerate) instance of the `Rng` parameter. -/
def rngZero : Nat → List Nat := fun _ => List.replicate 8 0

/-! ## Helper lemmas on byte strings -/

theorem natToBytes_length (l : Nat) : ∀ n, (natToBytes l n).length = l := by
  induction l with
  | zero => intro n; rfl
  | succ l ih => intro n; simp [natToBytes, ih]

theorem foldl_bytes (bs : List Nat) : ∀ acc : Nat,
    bs.foldl (fun a v => a * 256 + v) acc = acc * 256 ^ bs.length + bytesToNat bs := by
  induction bs with
  | nil => intro acc; simp [bytesToNat]
  | cons v bs ih =>
      intro acc
      have h2 : bytesToNat (v :: bs) = v * 256 ^ bs.length + bytesToNat bs := by
        show List.foldl _ _ (v :: bs) = _
        rw [List.foldl_cons, ih]
        ring
      rw [List.foldl_cons, ih, h2, List.length_cons]
      ring

theorem bytesToNat_cons (v : Nat) (bs : List Nat) :
    bytesToNat (v :: bs) = v * 256 ^ bs.length + bytesToNat bs := by
  show List.foldl _ _ (v :: bs) = _
  rw [List.foldl_cons, foldl_bytes]
  ring

theorem bytesToNat_natToBytes (l : Nat) : ∀ n, bytesToNat (natToBytes l n) = n % 256 ^ l := by
  induction l with
  | zero => intro n; simp [natToBytes, bytesToNat, Nat.mod_one]
  | succ l ih =>
      intro n
      rw [natToBytes, bytesToNat_cons, natToBytes_length, ih,
        Nat.mod_mod_of_dvd _ (dvd_refl (256 ^ l)), pow_succ, Nat.mod_mul]
      ring

theorem bytesToNat_lt (bs : List Nat) (h : ∀ v ∈ bs, v < 256) :
    bytesToNat bs < 256 ^ bs.length := by
  induction bs with
  | nil => simp [bytesToNat]
  | cons v bs ih =>
      rw [bytesToNat_cons, List.length_cons]
      have hv : v < 256 := h v (by simp)
      have hb : bytesToNat bs < 256 ^ bs.length := ih (fun x hx => h x (by simp [hx]))
      have : v * 256 ^ bs.length + bytesToNat bs < (v + 1) * 256 ^ bs.length := by
        nlinarith
      calc v * 256 ^ bs.length + bytesToNat bs < (v + 1) * 256 ^ bs.length := this
        _ ≤ 256 * 256 ^ bs.length := by
            have : v + 1 ≤ 256 := hv
            exact Nat.mul_le_mul_right _ this
        _ = 256 ^ (bs.length + 1) := by ring

theorem natToBytes_bytesToNat (bs : List Nat) (h : ∀ v ∈ bs, v < 256) :
    natToBytes bs.length (bytesToNat bs) = bs := by
  induction bs with
  | nil => rfl
  | cons v bs ih =>
      have hv : v < 256 := h v (by simp)
      have hb : bytesToNat bs < 256 ^ bs.length :=
        bytesToNat_lt bs (fun x hx => h x (by simp [hx]))
      have hB : 0 < 256 ^ bs.length := pow_pos (by norm_num) _
      rw [List.length_cons, natToBytes, bytesToNat_cons, Nat.mul_comm v,
        Nat.mul_add_div hB, Nat.mul_add_mod, Nat.div_eq_of_lt hb,
        Nat.mod_eq_of_lt hb, Nat.add_zero, Nat.mod_eq_of_lt hv,
        ih (fun x hx => h x (by simp [hx]))]

theorem natToBytes_zero (l : Nat) : natToBytes l 0 = List.replicate l 0 := by
  induction l with
  | zero => rfl
  | succ l ih => simp [natToBytes, ih, List.replicate_succ]

/-- The `verify_multiple` loop aborts with `none` as soon as some message
is not exactly 32 bytes. -/
theorem vmLoop_none {G1 G2 MAcc : Type} (another : MAcc → G2 → G1 → MAcc)
    (hashG2 : List Nat → Nat → G2) (domain : Nat) :
    ∀ (ms : List (List Nat)) (ks : List G1) (racc : MAcc),
      ms.length = ks.length → (∃ m ∈ ms, m.length ≠ 32) →
      vmLoop another hashG2 domain racc ms ks = none := by
  intro ms
  induction ms with
  | nil => intro ks racc _ hex; simp at hex
  | cons m ms ih =>
      intro ks racc hlen hex
      cases ks with
      | nil => simp at hlen
      | cons k ks =>
          rw [vmLoop]
          by_cases hm : m.length ≠ 32
          · rw [if_pos hm]
          · rw [if_neg hm]
            rcases hex with ⟨m0, hm0, hm0len⟩
            rcases List.mem_cons.mp hm0 with rfl | hmem
            · exact absurd hm0len hm
            · exact ih ks _ (by simpa using hlen) ⟨m0, hmem, hm0len⟩

/-! ## Claims -/

/-- C3: the hash-to-curve defined in `src/amcl_utils.rs` takes only the
message — there is no domain parameter to mix in — so the value of the
two-argument call written in `src/aggregates.rs` is the same under any two
domain tags, for every choice of the external `hash_to_curve_g2`.  This
contradicts the claim (and the repository's own `verify` tests, which
expect a signature created under domain 45 to fail verification under
domain 46). -/
theorem c3_hash_ignores_domain {G2T : Type} (hash_to_curve_g2 : List Nat → G2T)
    (msg : List Nat) (d1 d2 : Nat) :
    hash_on_g2_call hash_to_curve_g2 msg d1 = hash_on_g2_call hash_to_curve_g2 msg d2 := rfl

/-- C5: `verify_multiple` returns `false` (it is a total `Bool`-valued
function, so it never throws) whenever the message list and the key list
have different lengths, or the key list is empty, or some message is not
exactly 32 bytes long.  Generic in the external pairing provider. -/
theorem c5_verify_multiple_rejects {G1 G2 FP12 MAcc : Type}
    (g1neg : G1 → G1) (g1gen : G1) (fexp : FP12 → FP12) (initmp : MAcc)
    (another : MAcc → G2 → G1 → MAcc) (miller : MAcc → FP12)
    (isunity : FP12 → Bool) (hashG2 : List Nat → Nat → G2)
    (asig : AggregateSignature G2) (msg : List (List Nat)) (domain : Nat)
    (apks : List (AggregatePublicKey G1))
    (h : msg.length ≠ apks.length ∨ apks = [] ∨ ∃ m ∈ msg, m.length ≠ 32) :
    asig.verify_multiple g1neg g1gen fexp initmp another miller isunity hashG2
      msg domain apks = false := by
  by_cases hc : msg.length ≠ apks.length ∨ apks.isEmpty
  · simp only [AggregateSignature.verify_multiple, hc, if_true]
  · push_neg at hc
    obtain ⟨hlen, hne⟩ := hc
    rcases h with h1 | h2 | h3
    · exact absurd hlen h1
    · rw [h2] at hne; simp at hne
    · have hnone := vmLoop_none another hashG2 domain msg
        (apks.map (fun a => a.point)) initmp (by simp [hlen]) h3
      simp only [AggregateSignature.verify_multiple]
      rw [if_neg (by simp [hlen, hne]), hnone]

/-- Closed witness for C5 on the toy provider. -/
theorem c5_verify_multiple_rejects_witness :
    (⟨(0 : Int)⟩ : AggregateSignature Int).verify_multiple Int.neg 1 id (0 : Int)
      toyAnother toyIsUnity id toyHash [[1, 2]] 7 [⟨(5 : Int)⟩] = false :=
  c5_verify_multiple_rejects Int.neg 1 id 0 toyAnother id toyIsUnity toyHash
    ⟨0⟩ [[1, 2]] 7 [⟨5⟩] (Or.inr (Or.inr ⟨[1, 2], by decide⟩))

/-- C6: the decoder's rejection cases, for G1 (48 bytes) and G2 (96
bytes): wrong length is `IncorrectSize`; correct length with the top bit of
byte 0 clear is `InvalidCompressionFlag`; correct length with top bit and
infinity bit set, together with a set y-sign bit or a non-zero trailing
byte, is `BadPoint`.  Generic in the field parameters. -/
theorem c6_decode_rejects (p : Nat) (sqrtF : Nat → Nat) (sqrtF2 : FP2n → FP2n) :
    (∀ b : List Nat, b.length ≠ 48 →
      decompress_g1 p sqrtF b = .error .IncorrectSize) ∧
    (∀ b : List Nat, b.length = 48 → b.headD 0 < 128 →
      decompress_g1 p sqrtF b = .error .InvalidCompressionFlag) ∧
    (∀ b : List Nat, b.length = 48 → 192 ≤ b.headD 0 → b.headD 0 < 256 →
      (32 ≤ b.headD 0 % 64 ∨ ∃ v ∈ b.tail, v ≠ 0) →
      decompress_g1 p sqrtF b = .error .BadPoint) ∧
    (∀ b : List Nat, b.length ≠ 96 →
      decompress_g2 p sqrtF2 b = .error .IncorrectSize) ∧
    (∀ b : List Nat, b.length = 96 → b.headD 0 < 128 →
      decompress_g2 p sqrtF2 b = .error .InvalidCompressionFlag) ∧
    (∀ b : List Nat, b.length = 96 → 192 ≤ b.headD 0 → b.headD 0 < 256 →
      (32 ≤ b.headD 0 % 64 ∨ ∃ v ∈ b.tail, v ≠ 0) →
      decompress_g2 p sqrtF2 b = .error .BadPoint) := by
  refine ⟨?_, ?_, ?_, ?_, ?_, ?_⟩
  · intro b hlen; simp [decompress_g1, hlen]
  · intro b hlen hb0
    cases b with
    | nil => simp at hlen
    | cons b0 rest =>
        simp only [List.headD_cons] at hb0
        have h128 : b0 / 128 = 0 := Nat.div_eq_of_lt hb0
        simp [decompress_g1, hlen, h128]
  · intro b hlen h192 h256 hbad
    cases b with
    | nil => simp at hlen
    | cons b0 rest =>
        simp only [List.headD_cons] at h192 h256 hbad
        have h1 : b0 / 128 = 1 := by omega
        have h2 : b0 % 128 / 64 = 1 := by omega
        by_cases h64 : b0 % 64 = 0
        · rcases hbad with h32 | ⟨v, hv, hvne⟩
          · omega
          · simp only [List.tail_cons] at hv
            have hany : rest.any (fun v => decide (v ≠ 0)) = true :=
              List.any_eq_true.mpr ⟨v, hv, by simpa using hvne⟩
            simp [decompress_g1, hlen, h1, h2, h64, hany]
            exact ⟨v, hv, hvne⟩
        · simp [decompress_g1, hlen, h1, h2, h64]
  · intro b hlen; simp [decompress_g2, hlen]
  · intro b hlen hb0
    cases b with
    | nil => simp at hlen
    | cons b0 rest =>
        simp only [List.headD_cons] at hb0
        have h128 : b0 / 128 = 0 := Nat.div_eq_of_lt hb0
        simp [decompress_g2, hlen, h128]
  · intro b hlen h192 h256 hbad
    cases b with
    | nil => simp at hlen
    | cons b0 rest =>
        simp only [List.headD_cons] at h192 h256 hbad
        have h1 : b0 / 128 = 1 := by omega
        have h2 : b0 % 128 / 64 = 1 := by omega
        by_cases h64 : b0 % 64 = 0
        · rcases hbad with h32 | ⟨v, hv, hvne⟩
          · omega
          · simp only [List.tail_cons] at hv
            have hany : rest.any (fun v => decide (v ≠ 0)) = true :=
              List.any_eq_true.mpr ⟨v, hv, by simpa using hvne⟩
            simp [decompress_g2, hlen, h1, h2, h64, hany]
            exact ⟨v, hv, hvne⟩
        · simp [decompress_g2, hlen, h1, h2, h64]

/-- Closed witness for C6 at the toy field parameters. -/
theorem c6_decode_rejects_witness :
    decompress_g1 19 sqrtT [1, 2, 3] = .error .IncorrectSize ∧
    decompress_g1 19 sqrtT (0 :: List.replicate 47 0) = .error .InvalidCompressionFlag ∧
    decompress_g1 19 sqrtT (224 :: List.replicate 47 0) = .error .BadPoint ∧
    decompress_g1 19 sqrtT (192 :: (List.replicate 46 0 ++ [1])) = .error .BadPoint ∧
    decompress_g2 19 sqrtT2 [1, 2, 3] = .error .IncorrectSize ∧
    decompress_g2 19 sqrtT2 (0 :: List.replicate 95 0) = .error .InvalidCompressionFlag ∧
    decompress_g2 19 sqrtT2 (224 :: List.replicate 95 0) = .error .BadPoint ∧
    decompress_g2 19 sqrtT2 (192 :: (List.replicate 94 0 ++ [1])) = .error .BadPoint := by
  obtain ⟨h1, h2, h3, h4, h5, h6⟩ := c6_decode_rejects 19 sqrtT sqrtT2
  refine ⟨h1 _ (by decide), h2 _ (by decide) (by decide), ?_, ?_,
    h4 _ (by decide), h5 _ (by decide) (by decide), ?_, ?_⟩
  · exact h3 _ (by decide) (by decide) (by decide) (Or.inl (by decide))
  · exact h3 _ (by decide) (by decide) (by decide) (Or.inr ⟨1, by decide, by decide⟩)
  · exact h6 _ (by decide) (by decide) (by decide) (Or.inl (by decide))
  · exact h6 _ (by decide) (by decide) (by decide) (Or.inr ⟨1, by decide, by decide⟩)

/-- C7 (amended): `verify_multiple` does return `false` on empty lists, but
`verify_multiple_signatures` on an EMPTY sequence of signature sets returns
`true`: the loop accumulates nothing, the only pairing term is
`e(identity, -generator)`, which the provider's accumulate skips
(`e(O, Q) = 1`), and the empty pairing product is the target identity. -/
theorem c7_empty_inputs {G1 G2 FP12 MAcc : Type}
    (g1neg : G1 → G1) (g1gen : G1) (g1smul : Int → G1 → G1)
    (g2add : G2 → G2 → G2) (g2zero : G2) (g2smul : Int → G2 → G2)
    (fexp : FP12 → FP12) (initmp : MAcc) (another : MAcc → G2 → G1 → MAcc)
    (miller : MAcc → FP12) (isunity : FP12 → Bool) (hashG2 : List Nat → Nat → G2)
    (rng : Nat → List Nat)
    (hskip : ∀ (a : MAcc) (q : G1), another a g2zero q = a)
    (hunit : isunity (fexp (miller initmp)) = true) :
    (∀ (asig : AggregateSignature G2) (domain : Nat),
      asig.verify_multiple g1neg g1gen fexp initmp another miller isunity hashG2
        [] domain [] = false) ∧
    verify_multiple_signatures g1neg g1gen g1smul g2add g2zero g2smul fexp
      initmp another miller isunity hashG2 rng [] = true := by
  constructor
  · intro asig domain
    simp [AggregateSignature.verify_multiple]
  · show isunity (fexp (miller (another initmp g2zero (g1neg g1gen)))) = true
    rw [hskip, hunit]

/-- Closed witness for C7 on the toy provider. -/
theorem c7_empty_inputs_witness :
    (⟨(0 : Int)⟩ : AggregateSignature Int).verify_multiple Int.neg 1 id (0 : Int)
      toyAnother toyIsUnity id toyHash [] 7 [] = false ∧
    verify_multiple_signatures Int.neg 1 toySmul (· + ·) (0 : Int) toySmul id
      (0 : Int) toyAnother id toyIsUnity toyHash rngZero [] = true := by
  obtain ⟨h1, h2⟩ := c7_empty_inputs Int.neg 1 toySmul (· + ·) (0 : Int) toySmul
    id (0 : Int) toyAnother id toyIsUnity toyHash rngZero
    (fun a q => by simp [toyAnother]) rfl
  exact ⟨h1 ⟨0⟩ 7, h2⟩

/-- C7 counterexample: on the (law-abiding) toy provider, the batched
verification of an EMPTY sequence of signature sets evaluates to `true`,
not `false` as the claim states. -/
theorem c7_counterexample :
    verify_multiple_signatures Int.neg 1 toySmul (· + ·) (0 : Int) toySmul id
      (0 : Int) toyAnother id toyIsUnity toyHash rngZero [] = true := by rfl

/-- C10: verifying the freshly created identity `AggregateSignature`
against the freshly created identity `AggregatePublicKey` yields `true`
for every message and domain, because both pairing arguments of the
accepted check are the point at infinity (`e(O, -G)·e(H, O) = 1`). -/
theorem c10_identity_vacuous_accept {G1 G2 FP12 : Type}
    (g1neg : G1 → G1) (g1gen : G1) (ate2 : G2 → G1 → G2 → G1 → FP12)
    (fexp : FP12 → FP12) (fp12one : FP12) (fp12eq : FP12 → FP12 → Bool)
    (hashG2 : List Nat → Nat → G2) (g1zero : G1) (g2zero : G2)
    (hlaw : ∀ (b : G1) (c : G2), fp12eq fp12one (fexp (ate2 g2zero b c g1zero)) = true)
    (msg : List Nat) (domain : Nat) :
    (AggregateSignature.new g2zero).verify g1neg g1gen ate2 fexp fp12one fp12eq
      hashG2 msg domain (AggregatePublicKey.new g1zero) = true :=
  hlaw (g1neg g1gen) (hashG2 msg domain)

/-- Closed witness for C10 on the toy provider. -/
theorem c10_identity_vacuous_accept_witness :
    (AggregateSignature.new (0 : Int)).verify Int.neg 1 toyAte2 id (0 : Int)
      toyEq toyHash [99] 42 (AggregatePublicKey.new (0 : Int)) = true :=
  c10_identity_vacuous_accept Int.neg 1 toyAte2 id 0 toyEq toyHash 0 0
    (fun b c => by simp [toyAte2, toyEq]) [99] 42

/-- The point of a fold of `AggregatePublicKey.add` is the fold of the
provider's addition over the points. -/
theorem foldl_apk_point {G1 : Type} (g1add : G1 → G1 → G1) (l : List G1) :
    ∀ a : AggregatePublicKey G1,
      (l.foldl (fun acc k => acc.add g1add k) a).point = l.foldl g1add a.point := by
  induction l with
  | nil => intro a; rfl
  | cons k l ih => intro a; exact ih (a.add g1add k)

/-- The point of a fold of `AggregateSignature.add`. -/
theorem foldl_asig_point {G2 : Type} (g2add : G2 → G2 → G2) (l : List G2) :
    ∀ a : AggregateSignature G2,
      (l.foldl (fun acc s => acc.add g2add s) a).point = l.foldl g2add a.point := by
  induction l with
  | nil => intro a; rfl
  | cons s l ih => intro a; exact ih (a.add g2add s)

/-- Pulling an addend through a fold of an associative operation. -/
theorem foldl_add_pull {G : Type} (f : G → G → G)
    (hassoc : ∀ a b c, f (f a b) c = f a (f b c)) (l : List G) :
    ∀ a b, f a (l.foldl f b) = l.foldl f (f a b) := by
  induction l with
  | nil => intro a b; rfl
  | cons x l ih => intro a b; rw [List.foldl_cons, List.foldl_cons, ih, hassoc]

/-- C8: aggregation is an abelian monoid, for public keys and for
signatures, assuming the provider's point addition is commutative and
associative with the identity point as neutral element: folds over any
permutation agree, `add_aggregate` merges two partial aggregates into the
aggregate of the concatenation, and the freshly created aggregate is
neutral for `add_aggregate` on both sides. -/
theorem c8_aggregation_monoid {G1 G2 : Type}
    (g1add : G1 → G1 → G1) (g1zero : G1) (g2add : G2 → G2 → G2) (g2zero : G2)
    (h1comm : ∀ a b, g1add a b = g1add b a)
    (h1assoc : ∀ a b c, g1add (g1add a b) c = g1add a (g1add b c))
    (h1zero : ∀ a, g1add g1zero a = a)
    (h2comm : ∀ a b, g2add a b = g2add b a)
    (h2assoc : ∀ a b c, g2add (g2add a b) c = g2add a (g2add b c))
    (h2zero : ∀ a, g2add g2zero a = a) :
    (∀ l1 l2 : List G1, l1.Perm l2 →
      AggregatePublicKey.from_public_keys g1add g1zero l1 =
        AggregatePublicKey.from_public_keys g1add g1zero l2) ∧
    (∀ l1 l2 : List G1,
      (AggregatePublicKey.from_public_keys g1add g1zero l1).add_aggregate g1add
          (AggregatePublicKey.from_public_keys g1add g1zero l2) =
        AggregatePublicKey.from_public_keys g1add g1zero (l1 ++ l2)) ∧
    (∀ apk : AggregatePublicKey G1,
      apk.add_aggregate g1add (AggregatePublicKey.new g1zero) = apk ∧
      (AggregatePublicKey.new g1zero).add_aggregate g1add apk = apk) ∧
    (∀ s1 s2 : List G2, s1.Perm s2 →
      s1.foldl (fun acc s => acc.add g2add s) (AggregateSignature.new g2zero) =
        s2.foldl (fun acc s => acc.add g2add s) (AggregateSignature.new g2zero)) ∧
    (∀ asig : AggregateSignature G2,
      asig.add_aggregate g2add (AggregateSignature.new g2zero) = asig ∧
      (AggregateSignature.new g2zero).add_aggregate g2add asig = asig) := by
  have h1rc : ∀ (z : G1) (x y : G1), g1add (g1add z x) y = g1add (g1add z y) x := by
    intro z x y
    rw [h1assoc, h1assoc, h1comm x y]
  have h2rc : ∀ (z : G2) (x y : G2), g2add (g2add z x) y = g2add (g2add z y) x := by
    intro z x y
    rw [h2assoc, h2assoc, h2comm x y]
  refine ⟨?_, ?_, ?_, ?_, ?_⟩
  · intro l1 l2 hperm
    have hpt := hperm.foldl_eq' (f := fun acc k => AggregatePublicKey.add g1add acc k)
      (fun x _ y _ z => by
        show AggregatePublicKey.mk _ = AggregatePublicKey.mk _
        rw [AggregatePublicKey.mk.injEq]
        exact h1rc z.point x y)
    exact hpt (AggregatePublicKey.new g1zero)
  · intro l1 l2
    show AggregatePublicKey.mk _ = _
    rw [AggregatePublicKey.from_public_keys, AggregatePublicKey.from_public_keys,
      AggregatePublicKey.from_public_keys, List.foldl_append]
    rw [AggregatePublicKey.mk.injEq, foldl_apk_point, foldl_apk_point, foldl_apk_point]
    rw [foldl_add_pull g1add h1assoc]
    show _ = List.foldl g1add ((l1.foldl (fun acc k => AggregatePublicKey.add g1add acc k)
      (AggregatePublicKey.new g1zero)).point) l2
    rw [foldl_apk_point]
    congr 1
    show g1add _ g1zero = _
    rw [h1comm, h1zero]
  · intro apk
    constructor
    · show AggregatePublicKey.mk _ = _
      rw [AggregatePublicKey.mk.injEq]
      show g1add apk.point g1zero = _
      rw [h1comm, h1zero]
    · show AggregatePublicKey.mk _ = _
      rw [AggregatePublicKey.mk.injEq]
      exact h1zero apk.point
  · intro s1 s2 hperm
    have hpt := hperm.foldl_eq' (f := fun acc s => AggregateSignature.add g2add acc s)
      (fun x _ y _ z => by
        show AggregateSignature.mk _ = AggregateSignature.mk _
        rw [AggregateSignature.mk.injEq]
        exact h2rc z.point x y)
    exact hpt (AggregateSignature.new g2zero)
  · intro asig
    constructor
    · show AggregateSignature.mk _ = _
      rw [AggregateSignature.mk.injEq]
      show g2add asig.point g2zero = _
      rw [h2comm, h2zero]
    · show AggregateSignature.mk _ = _
      rw [AggregateSignature.mk.injEq]
      exact h2zero asig.point

/-- Closed witness for C8 over the integers as toy provider. -/
theorem c8_aggregation_monoid_witness :
    AggregatePublicKey.from_public_keys (· + ·) (0 : Int) [1, 2, 3] =
      AggregatePublicKey.from_public_keys (· + ·) (0 : Int) [3, 1, 2] ∧
    (AggregatePublicKey.from_public_keys (· + ·) (0 : Int) [1, 2]).add_aggregate (· + ·)
        (AggregatePublicKey.from_public_keys (· + ·) (0 : Int) [3, 4]) =
      AggregatePublicKey.from_public_keys (· + ·) (0 : Int) [1, 2, 3, 4] ∧
    (⟨(7 : Int)⟩ : AggregatePublicKey Int).add_aggregate (· + ·)
        (AggregatePublicKey.new (0 : Int)) = ⟨(7 : Int)⟩ ∧
    ([(5 : Int), 6].foldl (fun acc s => acc.add (· + ·) s) (AggregateSignature.new (0 : Int)) =
      [(6 : Int), 5].foldl (fun acc s => acc.add (· + ·) s) (AggregateSignature.new (0 : Int))) := by
  obtain ⟨hp, hm, hn, hs, _⟩ := @c8_aggregation_monoid Int Int
    (· + ·) 0 (· + ·) 0 Int.add_comm Int.add_assoc Int.zero_add
    Int.add_comm Int.add_assoc Int.zero_add
  refine ⟨hp [1, 2, 3] [3, 1, 2] (by decide), ?_, (hn ⟨7⟩).1, hs [5, 6] [6, 5] (by decide)⟩
  have := hm [1, 2] [3, 4]
  simpa using this

/-- The scalar derived from 8 random bytes lies in `[-(2^63), 2^63)`: far
from being uniform and nonzero in `[1, r)` with `r` the 255-bit curve
order, it can be `0`, and for the single pattern `0x80 00…00` it is even
negative (wrapping `abs`). -/
theorem randScalar_range (bytes : List Nat) (hlen : bytes.length = 8)
    (hb : ∀ v ∈ bytes, v < 256) :
    -(2 ^ 63) ≤ randScalar bytes ∧ randScalar bytes < 2 ^ 63 := by
  have hv : bytesToNat bytes < 18446744073709551616 := by
    have h := bytesToNat_lt bytes hb
    rw [hlen] at h
    norm_num at h
    exact h
  unfold randScalar i64abs toI64
  have e63 : ((2 : Int) ^ 63) = 9223372036854775808 := by norm_num
  have e63n : ((2 : Nat) ^ 63) = 9223372036854775808 := by norm_num
  have e64 : ((2 : Int) ^ 64) = 18446744073709551616 := by norm_num
  simp only [e63, e63n, e64]
  by_cases h1 : bytesToNat bytes < 9223372036854775808
  · rw [if_pos h1, if_neg (by omega), abs_of_nonneg (by positivity)]
    omega
  · rw [if_neg h1]
    by_cases h2 : (bytesToNat bytes : Int) - 18446744073709551616 = -9223372036854775808
    · rw [if_pos h2, h2]
      omega
    · rw [if_neg h2, abs_of_nonpos (by omega)]
      omega

/-- The loop of `verify_multiple_signatures`, in declarative form: when
every set's key and message counts agree, the loop returns the accumulator
extended by one pairing term `e(hash(message, domain_i), r_i·key)` per
(message, key) pair of set `i`, and the G2 total extended by `r_i·sig_i`
per set, each set `i` using the fresh scalar drawn from the i-th 8-byte
fill of the random source. -/
theorem vmsLoop_spec {G1 G2 MAcc : Type} (g1smul : Int → G1 → G1)
    (g2add : G2 → G2 → G2) (g2smul : Int → G2 → G2)
    (another : MAcc → G2 → G1 → MAcc) (hashG2 : List Nat → Nat → G2)
    (rng : Nat → List Nat) :
    ∀ (sets : List (G2 × List G1 × List (List Nat) × Nat)) (i : Nat)
      (racc : MAcc) (total : G2),
      (∀ s ∈ sets, (s.2.1).length = (s.2.2.1).length) →
      vmsLoop g1smul g2add g2smul another hashG2 rng i racc total sets =
        some (anotherFold another racc (vmsTermsFrom g1smul hashG2 rng i sets),
              (vmsSigsFrom g2smul rng i sets).foldl g2add total) := by
  intro sets
  induction sets with
  | nil => intro i racc total _; rfl
  | cons s rest ih =>
      intro i racc total hall
      obtain ⟨sigpt, g1pts, msgs, domain⟩ := s
      have hlen : g1pts.length = msgs.length :=
        hall (sigpt, g1pts, msgs, domain) (List.mem_cons_self _ _)
      rw [vmsLoop, if_neg (by simpa using hlen),
        ih (i + 1) _ _ (fun s hs => hall s (List.mem_cons_of_mem _ hs))]
      simp only [vmsTermsFrom, vmsSigsFrom, anotherFold, List.foldl_append,
        List.foldl_map, List.foldl_cons]

/-- C1 (amended): `verify_multiple_signatures` on sets with matching key
and message counts evaluates the batched check with exactly the structure
the claim describes — a fresh scalar per set, one pairing term
`e(hash(message_j, domain_i), r_i·key_j)` per pair, and the sum of the
`r_i·signature_i` paired against the negated generator — except that each
scalar is not uniform nonzero in `[1, r)`: it is the wrapping absolute
value of an `i64` read from 8 random bytes, hence confined to
`[-(2^63), 2^63)` and possibly zero. -/
theorem c1_batch_verification_structure {G1 G2 FP12 MAcc : Type}
    (g1neg : G1 → G1) (g1gen : G1) (g1smul : Int → G1 → G1)
    (g2add : G2 → G2 → G2) (g2zero : G2) (g2smul : Int → G2 → G2)
    (fexp : FP12 → FP12) (initmp : MAcc) (another : MAcc → G2 → G1 → MAcc)
    (miller : MAcc → FP12) (isunity : FP12 → Bool) (hashG2 : List Nat → Nat → G2)
    (rng : Nat → List Nat) (sets : List (G2 × List G1 × List (List Nat) × Nat))
    (hall : ∀ s ∈ sets, (s.2.1).length = (s.2.2.1).length) :
    verify_multiple_signatures g1neg g1gen g1smul g2add g2zero g2smul fexp
        initmp another miller isunity hashG2 rng sets =
      isunity (fexp (miller (another
        (anotherFold another initmp (vmsTermsFrom g1smul hashG2 rng 0 sets))
        ((vmsSigsFrom g2smul rng 0 sets).foldl g2add g2zero)
        (g1neg g1gen)))) ∧
    (∀ bytes : List Nat, bytes.length = 8 → (∀ v ∈ bytes, v < 256) →
      -(2 ^ 63) ≤ randScalar bytes ∧ randScalar bytes < 2 ^ 63) := by
  constructor
  · rw [verify_multiple_signatures,
      vmsLoop_spec g1smul g2add g2smul another hashG2 rng sets 0 initmp g2zero hall]
  · exact randScalar_range

/-- Closed witness for C1 on the toy provider, with one concrete signature
set. -/
theorem c1_batch_verification_structure_witness :
    verify_multiple_signatures Int.neg 1 toySmul (· + ·) (0 : Int) toySmul id
        (0 : Int) toyAnother id toyIsUnity toyHash rngZero [(2, [3], [[1]], 5)] =
      toyIsUnity (id (id (toyAnother
        (anotherFold toyAnother 0 (vmsTermsFrom toySmul toyHash rngZero 0 [(2, [3], [[1]], 5)]))
        ((vmsSigsFrom toySmul rngZero 0 [(2, [3], [[1]], 5)]).foldl (· + ·) 0)
        (Int.neg 1)))) ∧
    (∀ bytes : List Nat, bytes.length = 8 → (∀ v ∈ bytes, v < 256) →
      -(2 ^ 63) ≤ randScalar bytes ∧ randScalar bytes < 2 ^ 63) :=
  c1_batch_verification_structure Int.neg 1 toySmul (· + ·) 0 toySmul id 0
    toyAnother id toyIsUnity toyHash rngZero [(2, [3], [[1]], 5)]
    (fun s hs => by
      simp only [List.mem_singleton] at hs
      subst hs
      rfl)

/-- C1 counterexample: the blinding scalar obtained from an all-zero
8-byte fill from the random source is `0` — it is not a nonzero scalar in
`[1, r)` as the claim states. -/
theorem c1_counterexample : randScalar (List.replicate 8 0) = 0 := by decide

/-- Transfer an integer congruence to a `Nat` congruence. -/
theorem natmod_eq_of_int (x y n : Nat) (h : (x : Int) % (n : Int) = (y : Int) % (n : Int)) :
    x % n = y % n := by
  exact_mod_cast h

/-- The square of the field negation `(p - t) % p` is congruent to the
square of `t` mod `p`. -/
theorem negsq_mod (p t : Nat) (ht : t < p) :
    (p - t) % p * ((p - t) % p) % p = t * t % p := by
  apply natmod_eq_of_int
  push_cast [ht.le]
  rw [← Int.mul_emod]
  exact (Int.modEq_iff_dvd.mpr ⟨2 * t - p, by ring⟩ :
    Int.ModEq p ((p - t) * (p - t)) (t * t))

/-- Products of field negations are congruent to products of the original
values mod `p` (the two negation signs cancel). -/
theorem negmul_mod (p a b : Nat) (ha : a < p) (hb : b < p) :
    ((p - a) % p * ((p - b) % p) + (p - b) % p * ((p - a) % p)) % p
      = (a * b + b * a) % p := by
  apply natmod_eq_of_int
  push_cast [ha.le, hb.le]
  rw [Int.add_emod, ← Int.mul_emod, ← Int.mul_emod, ← Int.add_emod]
  exact (Int.modEq_iff_dvd.mpr ⟨2 * a + 2 * b - 2 * p, by ring⟩ :
    Int.ModEq p (((p : Int) - a) * ((p : Int) - b) + ((p : Int) - b) * ((p : Int) - a))
      ((a : Int) * b + (b : Int) * a))

/-- Congruence for the `X + p² - Y` shape used by `fp2mul`'s real part. -/
theorem submod_congr (p X Y X2 Y2 : Nat) (hY : Y ≤ p * p) (hY2 : Y2 ≤ p * p)
    (hX : X % p = X2 % p) (hYe : Y % p = Y2 % p) :
    (X + p * p - Y) % p = (X2 + p * p - Y2) % p := by
  apply natmod_eq_of_int
  have h1 : ((X + p * p - Y : Nat) : Int) = (X : Int) + (p : Int) * p - Y := by
    have : Y ≤ X + p * p := by omega
    push_cast [this]
    ring
  have h2 : ((X2 + p * p - Y2 : Nat) : Int) = (X2 : Int) + (p : Int) * p - Y2 := by
    have : Y2 ≤ X2 + p * p := by omega
    push_cast [this]
    ring
  rw [h1, h2]
  have hX' : (X : Int) % p = (X2 : Int) % p := by exact_mod_cast hX
  have hY' : (Y : Int) % p = (Y2 : Int) % p := by exact_mod_cast hYe
  exact Int.ModEq.sub (Int.ModEq.add_right ((p : Int) * p) hX') hY'

/-- Squaring commutes with `fp2neg` on reduced elements of F_p². -/
theorem fp2neg_sq (p : Nat) (y : FP2n) (ha : y.a < p) (hb : y.b < p) :
    fp2mul p (fp2neg p y) (fp2neg p y) = fp2mul p y y := by
  have hp : 0 < p := by omega
  have ha' : y.a % p = y.a := Nat.mod_eq_of_lt ha
  have hb' : y.b % p = y.b := Nat.mod_eq_of_lt hb
  have hna : (p - y.a) % p < p := Nat.mod_lt _ hp
  have hnb : (p - y.b) % p < p := Nat.mod_lt _ hp
  simp only [fp2mul, fp2neg, ha', hb', Nat.mod_eq_of_lt hna, Nat.mod_eq_of_lt hnb,
    FP2n.mk.injEq]
  constructor
  · exact submod_congr p _ _ _ _
      (le_of_lt (Nat.mul_lt_mul_of_lt_of_le hnb (le_of_lt hnb) hp))
      (le_of_lt (Nat.mul_lt_mul_of_lt_of_le hb (le_of_lt hb) hp))
      (negsq_mod p y.a ha) (negsq_mod p y.b hb)
  · exact negmul_mod p y.a y.b ha hb

/-- Anything `decompress_g1` accepts is the identity, the point built by
the provider's `new_big`, or its negation. -/
theorem decompress_g1_ok_cases (p : Nat) (sqrtF : Nat → Nat) (b : List Nat)
    (P : GroupG1) (h : decompress_g1 p sqrtF b = .ok P) :
    P = .inf ∨ P = new_big p sqrtF (bytesToNat (b.headD 0 % 32 :: b.tail)) ∨
    P = (new_big p sqrtF (bytesToNat (b.headD 0 % 32 :: b.tail))).neg p := by
  simp only [decompress_g1] at h
  split at h
  · exact Except.noConfusion h
  · split at h
    · exact Except.noConfusion h
    · split at h
      · split at h
        · exact Except.noConfusion h
        · split at h
          · exact Except.noConfusion h
          · injection h with h2
            exact Or.inl h2.symm
      · split at h
        · exact Except.noConfusion h
        · split at h
          · injection h with h2
            exact Or.inr (Or.inr h2.symm)
          · injection h with h2
            exact Or.inr (Or.inl h2.symm)

/-- Anything `decompress_g2` accepts is the identity, the point built by
the provider's `new_fp2`, or its negation. -/
theorem decompress_g2_ok_cases (p : Nat) (sqrtF2 : FP2n → FP2n) (b : List Nat)
    (P : GroupG2) (h : decompress_g2 p sqrtF2 b = .ok P) :
    P = .inf ∨
    P = new_fp2 p sqrtF2 ⟨bytesToNat (b.drop 48), bytesToNat (b.headD 0 % 32 :: b.tail.take 47)⟩ ∨
    P = (new_fp2 p sqrtF2
          ⟨bytesToNat (b.drop 48), bytesToNat (b.headD 0 % 32 :: b.tail.take 47)⟩).neg p := by
  simp only [decompress_g2] at h
  split at h
  · exact Except.noConfusion h
  · split at h
    · exact Except.noConfusion h
    · split at h
      · split at h
        · exact Except.noConfusion h
        · split at h
          · exact Except.noConfusion h
          · injection h with h2
            exact Or.inl h2.symm
      · split at h
        · exact Except.noConfusion h
        · split at h
          · injection h with h2
            exact Or.inr (Or.inr h2.symm)
          · injection h with h2
            exact Or.inr (Or.inl h2.symm)

/-- Whatever the square-root routine returns, `new_big` only ever builds
points on the curve (the squaring check guards it). -/
theorem new_big_on_curve (p : Nat) (hp : 0 < p) (sqrtF : Nat → Nat) (x : Nat) :
    (new_big p sqrtF x).OnCurve p := by
  simp only [new_big]
  split
  · next h => exact ⟨Nat.mod_lt _ hp, Nat.mod_lt _ hp, h⟩
  · trivial

/-- Negation preserves the curve equation on G1. -/
theorem neg_on_curve_g1 (p : Nat) (hp : 0 < p) (P : GroupG1) (h : P.OnCurve p) :
    (P.neg p).OnCurve p := by
  cases P with
  | inf => trivial
  | aff x y =>
      obtain ⟨hx, hy, hc⟩ := h
      refine ⟨hx, Nat.mod_lt _ hp, ?_⟩
      rw [Nat.mod_eq_of_lt hy, negsq_mod p y hy]
      exact hc

/-- Whatever the F_p² square-root routine returns, `new_fp2` only ever
builds points on the curve. -/
theorem new_fp2_on_curve (p : Nat) (hp : 0 < p) (sqrtF2 : FP2n → FP2n) (x : FP2n) :
    (new_fp2 p sqrtF2 x).OnCurve p := by
  simp only [new_fp2]
  split
  · next h =>
      exact ⟨Nat.mod_lt _ hp, Nat.mod_lt _ hp, Nat.mod_lt _ hp, Nat.mod_lt _ hp, h⟩
  · trivial

/-- Negation preserves the curve equation on G2. -/
theorem neg_on_curve_g2 (p : Nat) (hp : 0 < p) (P : GroupG2) (h : P.OnCurve p) :
    (P.neg p).OnCurve p := by
  cases P with
  | inf => trivial
  | aff x y =>
      obtain ⟨hxa, hxb, hya, hyb, hc⟩ := h
      refine ⟨hxa, hxb, Nat.mod_lt _ hp, Nat.mod_lt _ hp, ?_⟩
      show fp2mul p (fp2neg p y) (fp2neg p y) = _
      rw [fp2neg_sq p y hya hyb]
      exact hc

/-- C2 (amended): every byte string accepted by `decompress_g1` /
`decompress_g2` yields a point ON THE CURVE (or the identity) — the
decoder's only validity check is the squaring check inside the provider's
construct-from-x; no prime-order-subgroup check is performed, and an x on
the curve but outside the subgroup is NOT rejected with `BadPoint`. -/
theorem c2_decompress_on_curve (p : Nat) (sqrtF : Nat → Nat) (sqrtF2 : FP2n → FP2n)
    (hp : 0 < p) :
    (∀ (b : List Nat) (P : GroupG1), decompress_g1 p sqrtF b = .ok P → P.OnCurve p) ∧
    (∀ (b : List Nat) (P : GroupG2), decompress_g2 p sqrtF2 b = .ok P → P.OnCurve p) := by
  constructor
  · intro b P h
    rcases decompress_g1_ok_cases p sqrtF b P h with rfl | rfl | rfl
    · trivial
    · exact new_big_on_curve p hp sqrtF _
    · exact neg_on_curve_g1 p hp _ (new_big_on_curve p hp sqrtF _)
  · intro b P h
    rcases decompress_g2_ok_cases p sqrtF2 b P h with rfl | rfl | rfl
    · trivial
    · exact new_fp2_on_curve p hp sqrtF2 _
    · exact neg_on_curve_g2 p hp _ (new_fp2_on_curve p hp sqrtF2 _)

theorem natToBytes_succ (l n : Nat) :
    natToBytes (l + 1) n = (n / 256 ^ l % 256) :: natToBytes l (n % 256 ^ l) := rfl

theorem cmp_fp2_antisymm (u v : FP2n) : cmp_fp2 u v = -cmp_fp2 v u := by
  unfold cmp_fp2 bigComp
  rcases Nat.lt_trichotomy u.b v.b with h | h | h
  · simp [h, Nat.lt_asymm h]
  · rcases Nat.lt_trichotomy u.a v.a with h2 | h2 | h2
    · simp [h, h2, Nat.lt_asymm h2, Nat.lt_irrefl]
    · simp [h, h2, Nat.lt_irrefl]
    · simp [h, h2, Nat.lt_asymm h2, Nat.lt_irrefl]
  · simp [h, Nat.lt_asymm h, show ¬ u.b < v.b from Nat.lt_asymm h]

theorem cmp_fp2_eq_zero_iff (u v : FP2n) : cmp_fp2 u v = 0 ↔ u = v := by
  cases u with
  | mk ua ub =>
      cases v with
      | mk va vb =>
          unfold cmp_fp2 bigComp
          constructor
          · intro h
            rcases Nat.lt_trichotomy ub vb with h1 | h1 | h1 <;>
              rcases Nat.lt_trichotomy ua va with h2 | h2 | h2 <;>
                simp_all [Nat.lt_irrefl, FP2n.mk.injEq] <;> omega
          · intro h
            injection h with h1 h2
            simp [h1, h2]

/-- For distinct arguments `cmp_fp2` answers strictly positively in exactly
one direction. -/
theorem cmp_fp2_flip (u v : FP2n) (hne : u ≠ v) (h : ¬ 0 < cmp_fp2 u v) :
    0 < cmp_fp2 v u := by
  have ha := cmp_fp2_antisymm u v
  have hz : cmp_fp2 u v ≠ 0 := fun hc => hne ((cmp_fp2_eq_zero_iff u v).mp hc)
  omega

/-- Evaluation of `decompress_g1` on a 48-byte input whose byte 0 has the
compression bit set and the infinity bit clear. -/
theorem decompress_g1_noninf (p : Nat) (sqrtF : Nat → Nat) (b0v : Nat) (T : List Nat)
    (hTlen : T.length = 47) (h1 : b0v / 128 = 1) (h2 : b0v % 128 / 64 ≠ 1) :
    decompress_g1 p sqrtF (b0v :: T) =
      (if (new_big p sqrtF (bytesToNat (b0v % 32 :: T))).is_infinity then .error .BadPoint
       else if (decide (((new_big p sqrtF (bytesToNat (b0v % 32 :: T))).neg p).gety <
                  (new_big p sqrtF (bytesToNat (b0v % 32 :: T))).gety)) ≠
                decide (0 < b0v % 64 / 32) then
         .ok ((new_big p sqrtF (bytesToNat (b0v % 32 :: T))).neg p)
       else .ok (new_big p sqrtF (bytesToNat (b0v % 32 :: T)))) := by
  simp only [decompress_g1, List.length_cons, hTlen, List.headD_cons, List.tail_cons, h1, h2]
  norm_num

/-- Decoding the encoding of a valid point recovers the point — the
decode-after-encode direction of the G1 round-trip, assuming the field
square root succeeds on squares, square roots are unique up to sign, and
`p` is an odd prime below the 381-bit serialization bound. -/
theorem roundtrip_g1_dec_enc (p : Nat) (sqrtF : Nat → Nat)
    (hodd : p % 2 = 1) (hpb : p ≤ 2 ^ 381)
    (hsqrt : ∀ y, y < p → sqrtF (y * y % p) % p * (sqrtF (y * y % p) % p) % p = y * y % p)
    (huniq : ∀ a, a < p → ∀ c, c < p → a * a % p = c * c % p → a = c ∨ a + c = p)
    (P : GroupG1) (hP : P.OnCurve p) :
    decompress_g1 p sqrtF (compress_g1 p P) = .ok P := by
  have hp : 0 < p := by omega
  cases P with
  | inf =>
      show decompress_g1 p sqrtF (192 :: List.replicate 47 0) = .ok .inf
      simp [decompress_g1]
  | aff x y =>
      obtain ⟨hx, hy, hc⟩ := hP
      have hxlt : x < 32 * 256 ^ 47 :=
        lt_of_lt_of_le hx (le_trans hpb (by norm_num))
      have hh0 : x / 256 ^ 47 < 32 := Nat.div_lt_of_lt_mul (by omega)
      have h48 : natToBytes 48 x =
          (x / 256 ^ 47 % 256) :: natToBytes 47 (x % 256 ^ 47) := natToBytes_succ 47 x
      have hTlen : (natToBytes 47 (x % 256 ^ 47)).length = 47 := natToBytes_length 47 _
      have hmod256 : x / 256 ^ 47 % 256 = x / 256 ^ 47 := Nat.mod_eq_of_lt (by omega)
      have hcomp : compress_g1 p (.aff x y) =
          (x / 256 ^ 47 + (128 + (if (p - y % p) % p < y then 32 else 0))) ::
            natToBytes 47 (x % 256 ^ 47) := by
        simp only [compress_g1, GroupG1.is_infinity, Bool.false_eq_true, if_false,
          GroupG1.gety, GroupG1.neg, GroupG1.getx, h48, hmod256, setFlags]
      have hxbig : bytesToNat (x / 256 ^ 47 :: natToBytes 47 (x % 256 ^ 47)) = x := by
        rw [bytesToNat_cons, hTlen, bytesToNat_natToBytes,
          Nat.mod_mod_of_dvd _ (dvd_refl _), Nat.mul_comm (x / 256 ^ 47) (256 ^ 47)]
        exact Nat.div_add_mod x (256 ^ 47)
      have hrhs : (x * x * x + 4) % p = y * y % p := hc.symm
      have hnb : new_big p sqrtF x = .aff x (sqrtF (y * y % p) % p) := by
        simp only [new_big, Nat.mod_eq_of_lt hx, hrhs]
        rw [if_pos (hsqrt y hy)]
      have hslt : sqrtF (y * y % p) % p < p := Nat.mod_lt _ hp
      have hss : sqrtF (y * y % p) % p * (sqrtF (y * y % p) % p) % p = y * y % p :=
        hsqrt y hy
      rw [hcomp]
      set f : Nat := if (p - y % p) % p < y then 32 else 0 with hfdef
      have hf : f = 32 ∨ f = 0 := by
        rw [hfdef]; split <;> simp
      rw [decompress_g1_noninf p sqrtF _ _ hTlen (by omega) (by omega)]
      have hm32 : (x / 256 ^ 47 + (128 + f)) % 32 = x / 256 ^ 47 % 32 := by omega
      rw [hm32, Nat.mod_eq_of_lt hh0, hxbig, hnb]
      have hyflag : decide (0 < (x / 256 ^ 47 + (128 + f)) % 64 / 32)
          = decide ((p - y % p) % p < y) := by
        rw [hfdef]
        by_cases hflag : (p - y % p) % p < y <;> simp [hflag] <;> omega
      rw [hyflag]
      simp only [GroupG1.is_infinity, Bool.false_eq_true, if_false, GroupG1.neg,
        GroupG1.gety]
      obtain ⟨s, hsdef⟩ : ∃ s, sqrtF (y * y % p) % p = s := ⟨_, rfl⟩
      rw [hsdef] at hslt hss ⊢
      rcases huniq s hslt y hy hss with hsy | hsy
      · subst hsy
        simp
      · have hy0 : y ≠ 0 := by
          intro h0
          rw [h0, Nat.add_zero] at hsy
          omega
        have hs0 : s ≠ 0 := by
          intro h0
          rw [h0, Nat.zero_add] at hsy
          omega
        have hsval : s = p - y := by omega
        have hyval : (p - s % p) % p = y := by
          rw [Nat.mod_eq_of_lt hslt, hsval]
          have : p - (p - y) = y := by omega
          rw [this, Nat.mod_eq_of_lt hy]
        have hyneg : (p - y % p) % p = s := by
          rw [Nat.mod_eq_of_lt hy, ← hsval, Nat.mod_eq_of_lt hslt]
        simp only [hyval, hyneg]
        have hne : s ≠ y := by omega
        by_cases hlt : y < s
        · rw [if_pos (by simp [hlt, Nat.lt_asymm hlt])]
        · have hlt2 : s < y := by omega
          rw [if_pos (by simp [hlt, hlt2])]

/-- Encoding the decoding of an accepted canonical byte string restores the
bytes — the encode-after-decode direction of the G1 round-trip.  `b` must
be made of bytes, its x-field must be reduced (`< p`, the decoder accepts
non-canonical x-fields and silently reduces them), and the decoded y must
be nonzero for a non-identity point (vacuous on the real curve, which has
no two-torsion). -/
theorem roundtrip_g1_enc_dec (p : Nat) (sqrtF : Nat → Nat) (hodd : p % 2 = 1)
    (b : List Nat) (hb : ∀ v ∈ b, v < 256) (P : GroupG1)
    (hacc : decompress_g1 p sqrtF b = .ok P)
    (hcanon : bytesToNat (b.headD 0 % 32 :: b.tail) < p)
    (hynz : P = .inf ∨ P.gety ≠ 0) :
    compress_g1 p P = b := by
  have hp : 0 < p := by omega
  cases b with
  | nil => simp [decompress_g1] at hacc
  | cons b0 rest =>
      have hb0 : b0 < 256 := hb b0 (by simp)
      have hrest : ∀ v ∈ rest, v < 256 := fun v hv => hb v (by simp [hv])
      simp only [decompress_g1, List.length_cons, List.headD_cons, List.tail_cons]
        at hacc hcanon
      obtain ⟨x, hxdef⟩ : ∃ x, bytesToNat (b0 % 32 :: rest) = x := ⟨_, rfl⟩
      simp only [hxdef] at hacc hcanon
      split at hacc
      · exact Except.noConfusion hacc
      next hlen =>
        have hlen47 : rest.length = 47 := by omega
        split at hacc
        · exact Except.noConfusion hacc
        next h1 =>
          have h128 : b0 / 128 = 1 := by omega
          split at hacc
          · -- claimed-infinity branch
            next h2 =>
            split at hacc
            · exact Except.noConfusion hacc
            next h3 =>
              split at hacc
              · exact Except.noConfusion hacc
              next h4 =>
                injection hacc with hP2
                rw [← hP2]
                have hb192 : b0 = 192 := by omega
                have hz : ∀ v ∈ rest, v = 0 := by
                  intro v hv
                  by_contra hvne
                  exact h4 (List.any_eq_true.mpr ⟨v, hv, by simpa using hvne⟩)
                have hrepl : rest = List.replicate 47 0 := by
                  rw [List.eq_replicate_iff]
                  exact ⟨hlen47, hz⟩
                rw [hb192, hrepl]
                rfl
          next h2 =>
            -- non-infinity branch
            have hbit6 : b0 % 128 / 64 = 0 := by omega
            have hb0range : 128 ≤ b0 ∧ b0 < 192 := by omega
            -- reconstruct the bytes of x
            have hnb48 : natToBytes 48 x = b0 % 32 :: rest := by
              rw [← hxdef]
              have := natToBytes_bytesToNat (b0 % 32 :: rest)
                (by
                  intro v hv
                  rcases List.mem_cons.mp hv with rfl | hv2
                  · omega
                  · exact hrest v hv2)
              simpa [hlen47] using this
            have hhead : x / 256 ^ 47 % 256 = b0 % 32 := by
              have h2' := hnb48
              rw [natToBytes_succ 47 x] at h2'
              exact (List.cons.injEq _ _ _ _).mp h2' |>.1
            have htail : natToBytes 47 (x % 256 ^ 47) = rest := by
              have h2' := hnb48
              rw [natToBytes_succ 47 x] at h2'
              exact (List.cons.injEq _ _ _ _).mp h2' |>.2
            -- the accepted point
            split at hacc
            · exact Except.noConfusion hacc
            next hpninf =>
              have hchk : sqrtF ((x * x * x + 4) % p) % p *
                  (sqrtF ((x * x * x + 4) % p) % p) % p = (x * x * x + 4) % p := by
                by_contra hno
                apply hpninf
                simp only [new_big, Nat.mod_eq_of_lt hcanon, if_neg hno,
                  GroupG1.is_infinity]
              have hnbx : new_big p sqrtF x = .aff x (sqrtF ((x * x * x + 4) % p) % p) := by
                simp only [new_big, Nat.mod_eq_of_lt hcanon]
                rw [if_pos hchk]
              obtain ⟨s, hsdef⟩ : ∃ s, sqrtF ((x * x * x + 4) % p) % p = s := ⟨_, rfl⟩
              rw [hsdef] at hnbx hchk
              have hslt : s < p := hsdef ▸ Nat.mod_lt _ hp
              rw [hnbx] at hacc
              simp only [GroupG1.neg, GroupG1.gety] at hacc
              split at hacc
              · -- the negated candidate was returned
                next hsel =>
                injection hacc with hP2
                rw [← hP2]
                rw [← hP2] at hynz
                simp only [GroupG1.gety] at hynz
                have hs0 : s ≠ 0 := by
                  rcases hynz with h | h
                  · exact absurd h.symm (by simp)
                  · intro h0
                    rw [h0] at h
                    simp at h
                have hyy : (p - s % p) % p = p - s := by
                  rw [Nat.mod_eq_of_lt hslt, Nat.mod_eq_of_lt (by omega)]
                simp only [hyy] at hsel ⊢
                simp only [compress_g1, GroupG1.is_infinity, Bool.false_eq_true, if_false,
                  GroupG1.gety, GroupG1.neg, GroupG1.getx, natToBytes_succ 47, htail,
                  setFlags, hhead]
                have hps : p - s < p := by omega
                have hnn : (p - (p - s) % p) % p = s := by
                  rw [Nat.mod_eq_of_lt hps, Nat.sub_sub_self (le_of_lt hslt),
                    Nat.mod_eq_of_lt hslt]
                simp only [hnn]
                by_cases hlt : s < p - s
                · have hyflagT : (0 : Nat) < b0 % 64 / 32 := by
                    by_contra hnf
                    apply hsel
                    simp [show ¬ (p - s < s) by omega, hnf]
                  rw [if_pos hlt]
                  have : b0 % 32 + (128 + 32) = b0 := by omega
                  rw [this]
                · have hyflagF : ¬ ((0 : Nat) < b0 % 64 / 32) := by
                    intro hf
                    apply hsel
                    simp [show p - s < s by omega, hf]
                  rw [if_neg hlt]
                  have : b0 % 32 + (128 + 0) = b0 := by omega
                  rw [this]
              · -- the direct candidate was returned
                next hsel =>
                injection hacc with hP2
                rw [← hP2]
                simp only [compress_g1, GroupG1.is_infinity, Bool.false_eq_true, if_false,
                  GroupG1.gety, GroupG1.neg, GroupG1.getx, natToBytes_succ 47, htail,
                  setFlags, hhead]
                rw [not_not] at hsel
                by_cases hlt : (p - s % p) % p < s
                · have hyflagT : (0 : Nat) < b0 % 64 / 32 := by
                    have := hsel
                    simp [hlt] at this
                    omega
                  rw [if_pos hlt]
                  have : b0 % 32 + (128 + 32) = b0 := by omega
                  rw [this]
                · have hyflagF : ¬ ((0 : Nat) < b0 % 64 / 32) := by
                    have := hsel
                    simp [hlt] at this
                    omega
                  rw [if_neg hlt]
                  have : b0 % 32 + (128 + 0) = b0 := by omega
                  rw [this]

theorem dblneg_nat (p a : Nat) (ha : a < p) : (p - (p - a % p) % p % p) % p = a := by
  have hp : 0 < p := by omega
  rw [Nat.mod_eq_of_lt ha]
  rcases Nat.eq_zero_or_pos a with rfl | hpos
  · simp [Nat.mod_self]
  · rw [Nat.mod_eq_of_lt (show p - a < p by omega),
      Nat.mod_eq_of_lt (show p - a < p by omega),
      Nat.sub_sub_self (le_of_lt ha), Nat.mod_eq_of_lt ha]

theorem negself_nat (p a : Nat) (hodd : p % 2 = 1) (ha : a < p)
    (h : (p - a % p) % p = a) : a = 0 := by
  rcases Nat.eq_zero_or_pos a with rfl | hpos
  · rfl
  · rw [Nat.mod_eq_of_lt ha, Nat.mod_eq_of_lt (show p - a < p by omega)] at h
    omega

theorem fp2neg_neg (p : Nat) (u : FP2n) (ha : u.a < p) (hb : u.b < p) :
    fp2neg p (fp2neg p u) = u := by
  cases u with
  | mk ua ub =>
      simp only [fp2neg, FP2n.mk.injEq]
      exact ⟨dblneg_nat p ua ha, dblneg_nat p ub hb⟩

theorem fp2neg_eq_self (p : Nat) (hodd : p % 2 = 1) (u : FP2n)
    (ha : u.a < p) (hb : u.b < p) (h : fp2neg p u = u) : u = ⟨0, 0⟩ := by
  cases u with
  | mk ua ub =>
      simp only [fp2neg, FP2n.mk.injEq] at h ⊢
      exact ⟨negself_nat p ua hodd ha h.1, negself_nat p ub hodd hb h.2⟩

/-- Evaluation of `decompress_g2` on a 96-byte input whose byte 0 has the
compression bit set and the infinity bit clear. -/
theorem decompress_g2_noninf (p : Nat) (sqrtF2 : FP2n → FP2n) (b0v : Nat) (T : List Nat)
    (hTlen : T.length = 95) (h1 : b0v / 128 = 1) (h2 : b0v % 128 / 64 ≠ 1) :
    decompress_g2 p sqrtF2 (b0v :: T) =
      (if (new_fp2 p sqrtF2 ⟨bytesToNat (T.drop 47),
             bytesToNat (b0v % 32 :: T.take 47)⟩).is_infinity then .error .BadPoint
       else if (decide (0 < cmp_fp2
                  (new_fp2 p sqrtF2 ⟨bytesToNat (T.drop 47),
                     bytesToNat (b0v % 32 :: T.take 47)⟩).gety
                  ((new_fp2 p sqrtF2 ⟨bytesToNat (T.drop 47),
                     bytesToNat (b0v % 32 :: T.take 47)⟩).neg p).gety)) ≠
                decide (0 < b0v % 64 / 32) then
         .ok ((new_fp2 p sqrtF2 ⟨bytesToNat (T.drop 47),
                bytesToNat (b0v % 32 :: T.take 47)⟩).neg p)
       else .ok (new_fp2 p sqrtF2 ⟨bytesToNat (T.drop 47),
                bytesToNat (b0v % 32 :: T.take 47)⟩)) := by
  simp only [decompress_g2, List.length_cons, hTlen, List.headD_cons, List.tail_cons,
    List.drop_succ_cons, h1, h2]
  norm_num

/-- Decoding the encoding of a valid G2 point recovers the point. -/
theorem roundtrip_g2_dec_enc (p : Nat) (sqrtF2 : FP2n → FP2n)
    (hodd : p % 2 = 1) (hpb : p ≤ 2 ^ 381)
    (hsqrt2 : ∀ y : FP2n, y.a < p → y.b < p →
      fp2mul p (fp2red p (sqrtF2 (fp2mul p y y))) (fp2red p (sqrtF2 (fp2mul p y y))) =
        fp2mul p y y)
    (huniq2 : ∀ u : FP2n, u.a < p → u.b < p → ∀ v : FP2n, v.a < p → v.b < p →
      fp2mul p u u = fp2mul p v v → u = v ∨ u = fp2neg p v)
    (P : GroupG2) (hP : P.OnCurve p) :
    decompress_g2 p sqrtF2 (compress_g2 p P) = .ok P := by
  have hp : 0 < p := by omega
  cases P with
  | inf =>
      show decompress_g2 p sqrtF2 (192 :: List.replicate 95 0) = .ok .inf
      simp [decompress_g2]
  | aff x y =>
      obtain ⟨hxa, hxb, hya, hyb, hc⟩ := hP
      have hblt : x.b < 32 * 256 ^ 47 :=
        lt_of_lt_of_le hxb (le_trans hpb (by norm_num))
      have hh0 : x.b / 256 ^ 47 < 32 := Nat.div_lt_of_lt_mul (by omega)
      have h48 : natToBytes 48 x.b =
          (x.b / 256 ^ 47 % 256) :: natToBytes 47 (x.b % 256 ^ 47) := natToBytes_succ 47 x.b
      have hTlen : (natToBytes 47 (x.b % 256 ^ 47)).length = 47 := natToBytes_length 47 _
      have hAlen : (natToBytes 48 x.a).length = 48 := natToBytes_length 48 _
      have hmod256 : x.b / 256 ^ 47 % 256 = x.b / 256 ^ 47 := Nat.mod_eq_of_lt (by omega)
      have hcomp : compress_g2 p (.aff x y) =
          (x.b / 256 ^ 47 + (128 + (if 0 < cmp_fp2 y (fp2neg p y) then 32 else 0))) ::
            (natToBytes 47 (x.b % 256 ^ 47) ++ natToBytes 48 x.a) := by
        simp only [compress_g2, GroupG2.is_infinity, Bool.false_eq_true, if_false,
          GroupG2.gety, GroupG2.neg, GroupG2.getx, h48, hmod256, setFlags,
          List.cons_append]
      have htake : (natToBytes 47 (x.b % 256 ^ 47) ++ natToBytes 48 x.a).take 47 =
          natToBytes 47 (x.b % 256 ^ 47) := List.take_left' hTlen
      have hdrop : (natToBytes 47 (x.b % 256 ^ 47) ++ natToBytes 48 x.a).drop 47 =
          natToBytes 48 x.a := List.drop_left' hTlen
      have hxim : bytesToNat (x.b / 256 ^ 47 :: natToBytes 47 (x.b % 256 ^ 47)) = x.b := by
        rw [bytesToNat_cons, hTlen, bytesToNat_natToBytes,
          Nat.mod_mod_of_dvd _ (dvd_refl _), Nat.mul_comm (x.b / 256 ^ 47) (256 ^ 47)]
        exact Nat.div_add_mod x.b (256 ^ 47)
      have hxre : bytesToNat (natToBytes 48 x.a) = x.a := by
        rw [bytesToNat_natToBytes]
        exact Nat.mod_eq_of_lt (lt_of_lt_of_le hxa (le_trans hpb (by norm_num)))
      have hrhs : fp2add p (fp2mul p x (fp2mul p x x)) ⟨4, 4⟩ = fp2mul p y y := hc.symm
      have hred : fp2red p x = x := by
        cases x with
        | mk xa xb =>
            simp only [fp2red, FP2n.mk.injEq]
            exact ⟨Nat.mod_eq_of_lt hxa, Nat.mod_eq_of_lt hxb⟩
      have hnb : new_fp2 p sqrtF2 x = .aff x (fp2red p (sqrtF2 (fp2mul p y y))) := by
        simp only [new_fp2, hred, hrhs]
        rw [if_pos (hsqrt2 y hya hyb)]
      obtain ⟨s, hsdef⟩ : ∃ s, fp2red p (sqrtF2 (fp2mul p y y)) = s := ⟨_, rfl⟩
      rw [hsdef] at hnb
      have hsa : s.a < p := by rw [← hsdef]; exact Nat.mod_lt _ hp
      have hsb : s.b < p := by rw [← hsdef]; exact Nat.mod_lt _ hp
      have hss : fp2mul p s s = fp2mul p y y := by
        rw [← hsdef]; exact hsqrt2 y hya hyb
      rw [hcomp]
      set f : Nat := if 0 < cmp_fp2 y (fp2neg p y) then 32 else 0 with hfdef
      have hf : f = 32 ∨ f = 0 := by
        rw [hfdef]; split <;> simp
      rw [decompress_g2_noninf p sqrtF2 _ _
        (by rw [List.length_append, hTlen, hAlen]) (by omega) (by omega)]
      have hm32 : (x.b / 256 ^ 47 + (128 + f)) % 32 = x.b / 256 ^ 47 % 32 := by omega
      have hxeta : (⟨x.a, x.b⟩ : FP2n) = x := rfl
      simp only [htake, hdrop, hm32, Nat.mod_eq_of_lt hh0, hxim, hxre, hxeta, hnb]
      have hyflag : decide (0 < (x.b / 256 ^ 47 + (128 + f)) % 64 / 32)
          = decide (0 < cmp_fp2 y (fp2neg p y)) := by
        rw [hfdef]
        by_cases hflag : 0 < cmp_fp2 y (fp2neg p y) <;> simp [hflag] <;> omega
      simp only [hyflag, GroupG2.is_infinity, Bool.false_eq_true, if_false, GroupG2.neg,
        GroupG2.gety]
      rcases huniq2 s hsa hsb y hya hyb hss with hsy | hsy
      · subst hsy
        simp
      · by_cases hsys : s = y
        · subst hsys
          simp
        · simp only [hsy, fp2neg_neg p y hya hyb]
          have hne : fp2neg p y ≠ y := by
            intro h
            apply hsys
            rw [hsy, h]
          by_cases hlt : 0 < cmp_fp2 (fp2neg p y) y
          · have hnot : ¬ 0 < cmp_fp2 y (fp2neg p y) := by
              have ha := cmp_fp2_antisymm y (fp2neg p y)
              have hz : cmp_fp2 (fp2neg p y) y ≠ 0 :=
                fun hc => hne ((cmp_fp2_eq_zero_iff _ _).mp hc)
              omega
            rw [if_pos (by simp [hlt, hnot])]
          · have hpos : 0 < cmp_fp2 y (fp2neg p y) :=
              cmp_fp2_flip (fp2neg p y) y hne hlt
            rw [if_pos (by simp [hlt, hpos])]

/-- Encoding the decoding of an accepted canonical G2 byte string restores
the bytes. -/
theorem roundtrip_g2_enc_dec (p : Nat) (sqrtF2 : FP2n → FP2n) (hodd : p % 2 = 1)
    (b : List Nat) (hb : ∀ v ∈ b, v < 256) (P : GroupG2)
    (hacc : decompress_g2 p sqrtF2 b = .ok P)
    (hcanonIm : bytesToNat (b.headD 0 % 32 :: b.tail.take 47) < p)
    (hcanonRe : bytesToNat (b.drop 48) < p)
    (hynz : P = .inf ∨ P.gety ≠ ⟨0, 0⟩) :
    compress_g2 p P = b := by
  have hp : 0 < p := by omega
  cases b with
  | nil => simp [decompress_g2] at hacc
  | cons b0 rest =>
      have hb0 : b0 < 256 := hb b0 (by simp)
      have hrest : ∀ v ∈ rest, v < 256 := fun v hv => hb v (by simp [hv])
      simp only [decompress_g2, List.length_cons, List.headD_cons, List.tail_cons,
        List.drop_succ_cons] at hacc hcanonIm hcanonRe
      obtain ⟨xi, hxidef⟩ : ∃ xi, bytesToNat (b0 % 32 :: rest.take 47) = xi := ⟨_, rfl⟩
      obtain ⟨xr, hxrdef⟩ : ∃ xr, bytesToNat (rest.drop 47) = xr := ⟨_, rfl⟩
      simp only [hxidef, hxrdef] at hacc hcanonIm hcanonRe
      split at hacc
      · exact Except.noConfusion hacc
      next hlen =>
        have hlen95 : rest.length = 95 := by omega
        split at hacc
        · exact Except.noConfusion hacc
        next h1 =>
          have h128 : b0 / 128 = 1 := by omega
          split at hacc
          · next h2 =>
            split at hacc
            · exact Except.noConfusion hacc
            next h3 =>
              split at hacc
              · exact Except.noConfusion hacc
              next h4 =>
                injection hacc with hP2
                rw [← hP2]
                have hb192 : b0 = 192 := by omega
                have hz : ∀ v ∈ rest, v = 0 := by
                  intro v hv
                  by_contra hvne
                  exact h4 (List.any_eq_true.mpr ⟨v, hv, by simpa using hvne⟩)
                have hrepl : rest = List.replicate 95 0 := by
                  rw [List.eq_replicate_iff]
                  exact ⟨hlen95, hz⟩
                rw [hb192, hrepl]
                rfl
          next h2 =>
            have hbit6 : b0 % 128 / 64 = 0 := by omega
            have htklen : (rest.take 47).length = 47 := by
              rw [List.length_take]
              omega
            have hdplen : (rest.drop 47).length = 48 := by
              rw [List.length_drop]
              omega
            have hnb48im : natToBytes 48 xi = b0 % 32 :: rest.take 47 := by
              rw [← hxidef]
              have := natToBytes_bytesToNat (b0 % 32 :: rest.take 47)
                (by
                  intro v hv
                  rcases List.mem_cons.mp hv with rfl | hv2
                  · omega
                  · exact hrest v (List.mem_of_mem_take hv2))
              simpa [htklen] using this
            have hnb48re : natToBytes 48 xr = rest.drop 47 := by
              rw [← hxrdef]
              have := natToBytes_bytesToNat (rest.drop 47)
                (fun v hv => hrest v (List.mem_of_mem_drop hv))
              simpa [hdplen] using this
            split at hacc
            · exact Except.noConfusion hacc
            next hpninf =>
              have hXred : fp2red p (⟨xr, xi⟩ : FP2n) = ⟨xr, xi⟩ := by
                simp only [fp2red, FP2n.mk.injEq]
                exact ⟨Nat.mod_eq_of_lt hcanonRe, Nat.mod_eq_of_lt hcanonIm⟩
              have hchk : fp2mul p
                  (fp2red p (sqrtF2 (fp2add p (fp2mul p ⟨xr, xi⟩
                    (fp2mul p ⟨xr, xi⟩ ⟨xr, xi⟩)) ⟨4, 4⟩)))
                  (fp2red p (sqrtF2 (fp2add p (fp2mul p ⟨xr, xi⟩
                    (fp2mul p ⟨xr, xi⟩ ⟨xr, xi⟩)) ⟨4, 4⟩))) =
                  fp2add p (fp2mul p ⟨xr, xi⟩ (fp2mul p ⟨xr, xi⟩ ⟨xr, xi⟩)) ⟨4, 4⟩ := by
                by_contra hno
                apply hpninf
                simp only [new_fp2, hXred, if_neg hno, GroupG2.is_infinity]
              have hnbx : new_fp2 p sqrtF2 ⟨xr, xi⟩ =
                  .aff ⟨xr, xi⟩ (fp2red p (sqrtF2 (fp2add p (fp2mul p ⟨xr, xi⟩
                    (fp2mul p ⟨xr, xi⟩ ⟨xr, xi⟩)) ⟨4, 4⟩))) := by
                simp only [new_fp2, hXred]
                rw [if_pos hchk]
              obtain ⟨s, hsdef⟩ : ∃ s, fp2red p (sqrtF2 (fp2add p (fp2mul p ⟨xr, xi⟩
                  (fp2mul p ⟨xr, xi⟩ ⟨xr, xi⟩)) ⟨4, 4⟩)) = s := ⟨_, rfl⟩
              rw [hsdef] at hnbx
              have hsa : s.a < p := by rw [← hsdef]; exact Nat.mod_lt _ hp
              have hsb : s.b < p := by rw [← hsdef]; exact Nat.mod_lt _ hp
              rw [hnbx] at hacc
              simp only [GroupG2.neg, GroupG2.gety] at hacc
              split at hacc
              · -- the negated candidate was returned
                next hsel =>
                injection hacc with hP2
                rw [← hP2]
                rw [← hP2] at hynz
                simp only [GroupG2.gety] at hynz
                have hs0 : s ≠ ⟨0, 0⟩ := by
                  rcases hynz with h | h
                  · exact absurd h.symm (by simp)
                  · intro h0
                    rw [h0] at h
                    simp [fp2neg, Nat.mod_self] at h
                have hnegne : fp2neg p s ≠ s := by
                  intro heq
                  exact hs0 (fp2neg_eq_self p hodd s hsa hsb heq)
                simp only [compress_g2, GroupG2.is_infinity, Bool.false_eq_true, if_false,
                  GroupG2.gety, GroupG2.neg, GroupG2.getx, hnb48im, hnb48re,
                  fp2neg_neg p s hsa hsb, List.cons_append, setFlags,
                  List.take_append_drop]
                by_cases hlt : 0 < cmp_fp2 (fp2neg p s) s
                · have hnot : ¬ 0 < cmp_fp2 s (fp2neg p s) := by
                    have ha := cmp_fp2_antisymm s (fp2neg p s)
                    have hz2 : cmp_fp2 (fp2neg p s) s ≠ 0 :=
                      fun hc => hnegne ((cmp_fp2_eq_zero_iff _ _).mp hc)
                    omega
                  have hyflagT : (0 : Nat) < b0 % 64 / 32 := by
                    by_contra hnf
                    apply hsel
                    simp [hnot, hnf]
                  rw [if_pos hlt]
                  have : b0 % 32 + (128 + 32) = b0 := by omega
                  rw [this]
                · have hpos : 0 < cmp_fp2 s (fp2neg p s) :=
                    cmp_fp2_flip (fp2neg p s) s hnegne hlt
                  have hyflagF : ¬ ((0 : Nat) < b0 % 64 / 32) := by
                    intro hf2
                    apply hsel
                    simp [hpos, hf2]
                  rw [if_neg hlt]
                  have : b0 % 32 + (128 + 0) = b0 := by omega
                  rw [this]
              · -- the direct candidate was returned
                next hsel =>
                injection hacc with hP2
                rw [← hP2]
                simp only [compress_g2, GroupG2.is_infinity, Bool.false_eq_true, if_false,
                  GroupG2.gety, GroupG2.neg, GroupG2.getx, hnb48im, hnb48re,
                  List.cons_append, setFlags, List.take_append_drop]
                rw [not_not] at hsel
                by_cases hlt : 0 < cmp_fp2 s (fp2neg p s)
                · have hyflagT : (0 : Nat) < b0 % 64 / 32 := by
                    have := hsel
                    simp [hlt] at this
                    omega
                  rw [if_pos hlt]
                  have : b0 % 32 + (128 + 32) = b0 := by omega
                  rw [this]
                · have hyflagF : ¬ ((0 : Nat) < b0 % 64 / 32) := by
                    have := hsel
                    simp [hlt] at this
                    omega
                  rw [if_neg hlt]
                  have : b0 % 32 + (128 + 0) = b0 := by omega
                  rw [this]

/-- C4 (amended): the codec round-trips in the decode-after-encode
direction for every valid point of either group, including the identity;
in the encode-after-decode direction it round-trips for every accepted
byte string whose x-field is canonical (fully reduced mod `p`) and whose
decoded y is nonzero when the point is not the identity — accepted
NON-canonical x-fields (`x ≥ p`) decode successfully but re-compress to
the reduced bytes, breaking the round-trip (see the counterexample).
Assumptions: `p` odd and within the 381-bit serialization bound, the
provider's square roots succeed on squares, and square roots are unique up
to sign. -/
theorem c4_codec_roundtrip (p : Nat) (sqrtF : Nat → Nat) (sqrtF2 : FP2n → FP2n)
    (hodd : p % 2 = 1) (hpb : p ≤ 2 ^ 381)
    (hsqrt : ∀ y, y < p → sqrtF (y * y % p) % p * (sqrtF (y * y % p) % p) % p = y * y % p)
    (huniq : ∀ a, a < p → ∀ c, c < p → a * a % p = c * c % p → a = c ∨ a + c = p)
    (hsqrt2 : ∀ ya, ya < p → ∀ yb, yb < p →
      fp2mul p (fp2red p (sqrtF2 (fp2mul p ⟨ya, yb⟩ ⟨ya, yb⟩)))
          (fp2red p (sqrtF2 (fp2mul p ⟨ya, yb⟩ ⟨ya, yb⟩))) =
        fp2mul p ⟨ya, yb⟩ ⟨ya, yb⟩)
    (huniq2 : ∀ ua, ua < p → ∀ ub, ub < p → ∀ va, va < p → ∀ vb, vb < p →
      fp2mul p ⟨ua, ub⟩ ⟨ua, ub⟩ = fp2mul p ⟨va, vb⟩ ⟨va, vb⟩ →
      (⟨ua, ub⟩ : FP2n) = ⟨va, vb⟩ ∨ (⟨ua, ub⟩ : FP2n) = fp2neg p ⟨va, vb⟩) :
    (∀ P : GroupG1, P.OnCurve p → decompress_g1 p sqrtF (compress_g1 p P) = .ok P) ∧
    (∀ P : GroupG2, P.OnCurve p → decompress_g2 p sqrtF2 (compress_g2 p P) = .ok P) ∧
    (∀ (b : List Nat) (P : GroupG1), (∀ v ∈ b, v < 256) →
      decompress_g1 p sqrtF b = .ok P →
      bytesToNat (b.headD 0 % 32 :: b.tail) < p →
      (P = .inf ∨ P.gety ≠ 0) →
      compress_g1 p P = b) ∧
    (∀ (b : List Nat) (P : GroupG2), (∀ v ∈ b, v < 256) →
      decompress_g2 p sqrtF2 b = .ok P →
      bytesToNat (b.headD 0 % 32 :: b.tail.take 47) < p →
      bytesToNat (b.drop 48) < p →
      (P = .inf ∨ P.gety ≠ ⟨0, 0⟩) →
      compress_g2 p P = b) := by
  refine ⟨roundtrip_g1_dec_enc p sqrtF hodd hpb hsqrt huniq,
    roundtrip_g2_dec_enc p sqrtF2 hodd hpb
      (fun y hya hyb => hsqrt2 y.a hya y.b hyb)
      (fun u hua hub v hva hvb h => huniq2 u.a hua u.b hub v.a hva v.b hvb h),
    fun b P hb hacc hcanon hynz =>
      roundtrip_g1_enc_dec p sqrtF hodd b hb P hacc hcanon hynz,
    fun b P hb hacc hci hcr hynz =>
      roundtrip_g2_enc_dec p sqrtF2 hodd b hb P hacc hci hcr hynz⟩

/-- Closed witness for C4 at the toy prime `p = 3`: a concrete round-trip
in all four directions. -/
theorem c4_codec_roundtrip_witness :
    decompress_g1 3 sqrtT3 (compress_g1 3 (.aff 0 1)) = .ok (.aff 0 1) ∧
    decompress_g2 3 sqrtT3h (compress_g2 3 (.aff ⟨0, 1⟩ ⟨1, 0⟩)) = .ok (.aff ⟨0, 1⟩ ⟨1, 0⟩) ∧
    compress_g1 3 (.aff 0 1) = 128 :: List.replicate 47 0 ∧
    compress_g2 3 (.aff ⟨0, 1⟩ ⟨1, 0⟩) =
      128 :: (List.replicate 46 0 ++ [1] ++ List.replicate 48 0) := by
  obtain ⟨h1, h2, h3, h4⟩ := c4_codec_roundtrip 3 sqrtT3 sqrtT3h (by decide) (by norm_num)
    (by decide) (by decide) (by decide)
    (by
      intro ua hua ub hub va hva vb hvb
      interval_cases ua <;> interval_cases ub <;> interval_cases va <;>
        interval_cases vb <;> decide)
  refine ⟨h1 _ (by decide), h2 _ (by decide), ?_, ?_⟩
  · exact h3 (128 :: List.replicate 47 0) (.aff 0 1)
      (by decide) (by decide) (by decide) (by decide)
  · exact h4 (128 :: (List.replicate 46 0 ++ [1] ++ List.replicate 48 0)) (.aff ⟨0, 1⟩ ⟨1, 0⟩)
      (by decide) (by decide) (by decide) (by decide) (by decide)

/-- C9: in the 96-byte G2 compressed encoding, the x-coordinate is
serialized as the 48-byte imaginary component followed by the 48-byte real
component (the reverse of the provider's native real-then-imaginary
order); `cmp_fp2` is the lexicographic comparison taking the imaginary
component first and, only on a tie, the real component; the y-sign flag of
the encoding records `cmp_fp2 y (-y) > 0`; and `decompress_g2` selects the
candidate point whose y-sign, under the SAME comparison, matches the
flag. -/
theorem c9_g2_layout_and_sign (p : Nat) (sqrtF2 : FP2n → FP2n)
    (hodd : p % 2 = 1) (hpb : p ≤ 2 ^ 381) :
    (∀ x y : FP2n, x.a < p → x.b < p →
      bytesToNat ((compress_g2 p (.aff x y)).headD 0 % 32 ::
          (compress_g2 p (.aff x y)).tail.take 47) = x.b ∧
      bytesToNat ((compress_g2 p (.aff x y)).drop 48) = x.a) ∧
    (∀ n1 n2 : FP2n, 0 < cmp_fp2 n1 n2 ↔ (n2.b < n1.b ∨ (n1.b = n2.b ∧ n2.a < n1.a))) ∧
    (∀ x y : FP2n, x.a < p → x.b < p →
      (compress_g2 p (.aff x y)).headD 0 % 64 / 32 =
        if 0 < cmp_fp2 y (fp2neg p y) then 1 else 0) ∧
    (∀ (b : List Nat) (P : GroupG2), decompress_g2 p sqrtF2 b = .ok P →
      P.is_infinity = false → P.gety ≠ ⟨0, 0⟩ →
      decide (0 < cmp_fp2 P.gety ((P.neg p).gety)) = decide (0 < b.headD 0 % 64 / 32)) := by
  have hp : 0 < p := by omega
  have hlayout : ∀ x y : FP2n, x.b < p →
      compress_g2 p (.aff x y) =
        (x.b / 256 ^ 47 + (128 + (if 0 < cmp_fp2 y (fp2neg p y) then 32 else 0))) ::
          (natToBytes 47 (x.b % 256 ^ 47) ++ natToBytes 48 x.a) := by
    intro x y hxb
    have hblt : x.b < 32 * 256 ^ 47 :=
      lt_of_lt_of_le hxb (le_trans hpb (by norm_num))
    have h48 : natToBytes 48 x.b =
        (x.b / 256 ^ 47 % 256) :: natToBytes 47 (x.b % 256 ^ 47) := natToBytes_succ 47 x.b
    have hmod256 : x.b / 256 ^ 47 % 256 = x.b / 256 ^ 47 := Nat.mod_eq_of_lt (by omega)
    simp only [compress_g2, GroupG2.is_infinity, Bool.false_eq_true, if_false,
      GroupG2.gety, GroupG2.neg, GroupG2.getx, h48, hmod256, setFlags,
      List.cons_append]
  refine ⟨?_, ?_, ?_, ?_⟩
  · intro x y hxa hxb
    have hblt : x.b < 32 * 256 ^ 47 :=
      lt_of_lt_of_le hxb (le_trans hpb (by norm_num))
    have hh0 : x.b / 256 ^ 47 < 32 := Nat.div_lt_of_lt_mul (by omega)
    have hTlen : (natToBytes 47 (x.b % 256 ^ 47)).length = 47 := natToBytes_length 47 _
    rw [hlayout x y hxb]
    constructor
    · simp only [List.headD_cons, List.tail_cons, List.take_left' hTlen]
      have hm32 : (x.b / 256 ^ 47 +
          (128 + (if 0 < cmp_fp2 y (fp2neg p y) then 32 else 0))) % 32
          = x.b / 256 ^ 47 := by
        split <;> omega
      rw [hm32, bytesToNat_cons, hTlen, bytesToNat_natToBytes,
        Nat.mod_mod_of_dvd _ (dvd_refl _), Nat.mul_comm (x.b / 256 ^ 47) (256 ^ 47)]
      exact Nat.div_add_mod x.b (256 ^ 47)
    · simp only [List.drop_succ_cons, List.drop_left' hTlen, bytesToNat_natToBytes]
      exact Nat.mod_eq_of_lt (lt_of_lt_of_le hxa (le_trans hpb (by norm_num)))
  · intro n1 n2
    simp only [cmp_fp2, bigComp]
    split_ifs <;> first | contradiction | omega
  · intro x y hxa hxb
    have hblt : x.b < 32 * 256 ^ 47 :=
      lt_of_lt_of_le hxb (le_trans hpb (by norm_num))
    have hh0 : x.b / 256 ^ 47 < 32 := Nat.div_lt_of_lt_mul (by omega)
    rw [hlayout x y hxb]
    simp only [List.headD_cons]
    by_cases hcy : 0 < cmp_fp2 y (fp2neg p y)
    · simp only [if_pos hcy]
      omega
    · simp only [if_neg hcy]
      omega
  · intro b P hacc hpninf0 hynz
    cases b with
    | nil => simp [decompress_g2] at hacc
    | cons b0 rest =>
        simp only [List.headD_cons]
        simp only [decompress_g2, List.length_cons, List.headD_cons, List.tail_cons,
          List.drop_succ_cons] at hacc
        obtain ⟨xi, hxidef⟩ : ∃ xi, bytesToNat (b0 % 32 :: rest.take 47) = xi := ⟨_, rfl⟩
        obtain ⟨xr, hxrdef⟩ : ∃ xr, bytesToNat (rest.drop 47) = xr := ⟨_, rfl⟩
        simp only [hxidef, hxrdef] at hacc
        split at hacc
        · exact Except.noConfusion hacc
        next hlen =>
          split at hacc
          · exact Except.noConfusion hacc
          next h1 =>
            split at hacc
            · next h2 =>
              split at hacc
              · exact Except.noConfusion hacc
              next h3 =>
                split at hacc
                · exact Except.noConfusion hacc
                next h4 =>
                  injection hacc with hP2
                  rw [← hP2] at hpninf0
                  simp [GroupG2.is_infinity] at hpninf0
            next h2 =>
              split at hacc
              · exact Except.noConfusion hacc
              next hpninf =>
                obtain ⟨X, hXdef⟩ : ∃ X, fp2red p (⟨xr, xi⟩ : FP2n) = X := ⟨_, rfl⟩
                have hchk : fp2mul p
                    (fp2red p (sqrtF2 (fp2add p (fp2mul p X (fp2mul p X X)) ⟨4, 4⟩)))
                    (fp2red p (sqrtF2 (fp2add p (fp2mul p X (fp2mul p X X)) ⟨4, 4⟩))) =
                    fp2add p (fp2mul p X (fp2mul p X X)) ⟨4, 4⟩ := by
                  by_contra hno
                  apply hpninf
                  simp only [new_fp2, hXdef, if_neg hno, GroupG2.is_infinity]
                have hnbx : new_fp2 p sqrtF2 ⟨xr, xi⟩ =
                    .aff X (fp2red p (sqrtF2 (fp2add p
                      (fp2mul p X (fp2mul p X X)) ⟨4, 4⟩))) := by
                  simp only [new_fp2, hXdef]
                  rw [if_pos hchk]
                obtain ⟨s, hsdef⟩ : ∃ s, fp2red p (sqrtF2 (fp2add p
                    (fp2mul p X (fp2mul p X X)) ⟨4, 4⟩)) = s := ⟨_, rfl⟩
                rw [hsdef] at hnbx
                have hsa : s.a < p := by rw [← hsdef]; exact Nat.mod_lt _ hp
                have hsb : s.b < p := by rw [← hsdef]; exact Nat.mod_lt _ hp
                rw [hnbx] at hacc
                simp only [GroupG2.neg, GroupG2.gety] at hacc
                split at hacc
                · next hsel =>
                  injection hacc with hP2
                  rw [← hP2] at hynz ⊢
                  simp only [GroupG2.gety, GroupG2.neg] at hynz ⊢
                  simp only [fp2neg_neg p s hsa hsb]
                  have hs0 : s ≠ ⟨0, 0⟩ := by
                    intro h0
                    apply hynz
                    rw [h0]
                    simp [fp2neg]
                  have hnegne : fp2neg p s ≠ s := by
                    intro heq
                    exact hs0 (fp2neg_eq_self p hodd s hsa hsb heq)
                  by_cases hlt : 0 < cmp_fp2 (fp2neg p s) s
                  · have ha2 := cmp_fp2_antisymm s (fp2neg p s)
                    have hnot : ¬ 0 < cmp_fp2 s (fp2neg p s) := by omega
                    by_cases hf : 0 < b0 % 64 / 32
                    · rw [decide_eq_decide]
                      exact iff_of_true hlt hf
                    · exact absurd (by rw [decide_eq_decide]
                                       exact iff_of_false hnot hf) hsel
                  · have hpos : 0 < cmp_fp2 s (fp2neg p s) :=
                      cmp_fp2_flip (fp2neg p s) s hnegne hlt
                    by_cases hf : 0 < b0 % 64 / 32
                    · exact absurd (by rw [decide_eq_decide]
                                       exact iff_of_true hpos hf) hsel
                    · rw [decide_eq_decide]
                      exact iff_of_false hlt hf
                · next hsel =>
                  injection hacc with hP2
                  rw [not_not] at hsel
                  rw [← hP2]
                  simp only [GroupG2.gety, GroupG2.neg]
                  exact hsel

/-- Closed witness for C9 at the toy prime `p = 19`: the layout, comparison,
flag and selection facts instantiated at concrete points and bytes. -/
theorem c9_g2_layout_and_sign_witness :
    (bytesToNat ((compress_g2 19 (.aff ⟨0, 1⟩ ⟨3, 10⟩)).headD 0 % 32 ::
        (compress_g2 19 (.aff ⟨0, 1⟩ ⟨3, 10⟩)).tail.take 47) = 1 ∧
      bytesToNat ((compress_g2 19 (.aff ⟨0, 1⟩ ⟨3, 10⟩)).drop 48) = 0) ∧
    (0 < cmp_fp2 ⟨5, 7⟩ ⟨9, 6⟩ ↔ ((6 : Nat) < 7 ∨ (7 : Nat) = 6 ∧ (9 : Nat) < 5)) ∧
    (compress_g2 19 (.aff ⟨0, 1⟩ ⟨3, 10⟩)).headD 0 % 64 / 32 =
      (if 0 < cmp_fp2 ⟨3, 10⟩ (fp2neg 19 ⟨3, 10⟩) then 1 else 0) ∧
    decide (0 < cmp_fp2 (GroupG2.aff ⟨0, 1⟩ ⟨16, 9⟩).gety
        (((GroupG2.aff ⟨0, 1⟩ ⟨16, 9⟩).neg 19).gety)) =
      decide (0 < (128 :: (List.replicate 46 0 ++ [1] ++
        List.replicate 48 0)).headD 0 % 64 / 32) := by
  obtain ⟨ha, hb, hd, he⟩ := c9_g2_layout_and_sign 19 sqrtT2 (by decide) (by norm_num)
  exact ⟨ha ⟨0, 1⟩ ⟨3, 10⟩ (by decide) (by decide), hb ⟨5, 7⟩ ⟨9, 6⟩,
    hd ⟨0, 1⟩ ⟨3, 10⟩ (by decide) (by decide),
    he (128 :: (List.replicate 46 0 ++ [1] ++ List.replicate 48 0))
      (GroupG2.aff ⟨0, 1⟩ ⟨16, 9⟩) (by decide) (by decide) (by decide)⟩

/-- Closed witness for C2 at the toy field parameters: two concrete
accepted byte strings whose decoded points are on the respective curves. -/
theorem c2_decompress_on_curve_witness :
    (GroupG1.aff 1 9).OnCurve 19 ∧ (GroupG2.aff ⟨0, 1⟩ ⟨16, 9⟩).OnCurve 19 := by
  constructor
  · exact (c2_decompress_on_curve 19 sqrtT sqrtT2 (by norm_num)).1
      (128 :: (List.replicate 46 0 ++ [1])) _ (by decide)
  · exact (c2_decompress_on_curve 19 sqrtT sqrtT2 (by norm_num)).2
      (128 :: (List.replicate 46 0 ++ [1] ++ List.replicate 48 0)) _ (by decide)

set_option maxRecDepth 1000000 in
set_option maxHeartbeats 8000000 in
/-- Counterexample for C2 as stated: on the mainnet BLS12-381 parameters,
`decompress_g1` accepts the 48 bytes `0x80 00 … 00 04` (x = 4), yet the
decoded point — though on the curve — is NOT in the order-r subgroup:
multiplying it by the group order does not give the identity. Decompression
therefore does not guarantee subgroup membership. -/
theorem c2_counterexample :
    decompress_g1 pBLS sqrtBLS badBytesG1 = .ok ptBad ∧ ¬ inSubgroupG1 ptBad := by
  constructor
  · decide
  · decide

set_option maxRecDepth 1000000 in
set_option maxHeartbeats 8000000 in
/-- Counterexample for C4's decode-then-encode direction as stated: on the
mainnet BLS12-381 parameters, `decompress_g1` accepts bytes whose 381-bit
x-field is `pBLS + 4` (not reduced mod p, hence non-canonical), and
re-compressing the decoded point produces different bytes, so
`compress ∘ decompress` is not the identity on all accepted inputs. -/
theorem c4_counterexample :
    decompress_g1 pBLS sqrtBLS nonCanonBytesG1 = .ok ptBad ∧
      compress_g1 pBLS ptBad ≠ nonCanonBytesG1 := by
  constructor
  · decide
  · decide

end MilagroBLS
